import Mathlib

/-!
Verification of the semver catalog-template core of operator-registry
(`alpha/template/semver/semver.go`): channel synthesis (`generateChannels`),
edge linking (`linkChannels`), version extraction and validation
(`getVersionsFromChannel`, `getVersionsFromStandardChannels`,
`withoutBuildMetadataConflict`, `validateVersions`) and the `Render`
pipeline.  Versions model the external blang/semver v4 library; the
declcfg record types and the tier/stream priority tables, whose Go
declarations live outside the provided sources, are modelled from the
specification and marked as such.
-/

namespace Semver

/-- Prerelease identifier of a semantic version, as in the external
blang/semver v4 library (`PRVersion`): either a numeric identifier or an
alphanumeric one. -/
inductive PRVersion where
  | num (n : Nat)
  | alnum (s : String)
deriving DecidableEq, Repr

/-- Semantic version, modelling blang/semver v4 `semver.Version`:
major/minor/patch numbers, prerelease identifiers and build metadata. -/
structure Version where
  major : Nat
  minor : Nat
  patch : Nat
  pre : List PRVersion := []
  build : List String := []
deriving DecidableEq, Repr

/-- Comparison of two strings as blang/semver compares alphanumeric
prerelease identifiers (byte-wise, which agrees with the character order
on strings). -/
def strCompare (a b : String) : Ordering :=
  if a < b then .lt else if b < a then .gt else .eq

/-- Comparison of prerelease identifiers, as blang/semver `PRVersion.Compare`:
numeric identifiers sort below alphanumeric ones. -/
def prCompare : PRVersion → PRVersion → Ordering
  | .num a, .num b => compare a b
  | .num _, .alnum _ => .lt
  | .alnum _, .num _ => .gt
  | .alnum a, .alnum b => strCompare a b

/-- Element-wise comparison of two prerelease identifier lists, as the loop
in blang/semver `Version.Compare`: the first non-equal pair decides, and a
strict prefix sorts below the longer list. -/
def preCompare : List PRVersion → List PRVersion → Ordering
  | [], [] => .eq
  | [], _ :: _ => .lt
  | _ :: _, [] => .gt
  | a :: as, b :: bs => (prCompare a b).then (preCompare as bs)

/-- Top-level prerelease comparison in blang/semver `Version.Compare`:
an empty prerelease list sorts above any non-empty one. -/
def preTop : List PRVersion → List PRVersion → Ordering
  | [], [] => .eq
  | [], _ :: _ => .gt
  | _ :: _, [] => .lt
  | a :: as, b :: bs => preCompare (a :: as) (b :: bs)

/-- Version precedence comparison, as blang/semver `Version.Compare`:
lexicographic on (major, minor, patch) and then on the prerelease list;
build metadata is ignored. -/
def Version.comp (v w : Version) : Ordering :=
  (compare v.major w.major).then
    ((compare v.minor w.minor).then
      ((compare v.patch w.patch).then (preTop v.pre w.pre)))

/-- Strict precedence order on versions (blang/semver `Version.LT`). -/
def Version.lt (v w : Version) : Prop := v.comp w = .lt

/-- Precedence equality on versions (blang/semver `Version.EQ`,
`Compare == 0`); build metadata is ignored. -/
def Version.peq (v w : Version) : Prop := v.comp w = .eq

instance (v w : Version) : Decidable (v.lt w) := by
  unfold Version.lt; infer_instance

instance (v w : Version) : Decidable (v.peq w) := by
  unfold Version.peq; infer_instance

theorem Ordering.then_eq_lt {a b : Ordering} :
    a.then b = .lt ↔ a = .lt ∨ (a = .eq ∧ b = .lt) := by
  cases a <;> simp [Ordering.then]

theorem Ordering.then_eq_eq {a b : Ordering} :
    a.then b = .eq ↔ a = .eq ∧ b = .eq := by
  cases a <;> simp [Ordering.then]

theorem Ordering.then_eq_gt {a b : Ordering} :
    a.then b = .gt ↔ a = .gt ∨ (a = .eq ∧ b = .gt) := by
  cases a <;> simp [Ordering.then]

theorem strCompare_eq_eq {a b : String} : strCompare a b = .eq ↔ a = b := by
  unfold strCompare
  split
  · rename_i h
    simp only [reduceCtorEq, false_iff]
    exact ne_of_lt h
  · split
    · rename_i h
      simp only [reduceCtorEq, false_iff]
      exact (ne_of_lt h).symm
    · rename_i h1 h2
      simp only [true_iff]
      exact le_antisymm (not_lt.mp h2) (not_lt.mp h1)

theorem strCompare_eq_lt {a b : String} : strCompare a b = .lt ↔ a < b := by
  unfold strCompare
  split
  · rename_i h
    exact iff_of_true rfl h
  · split <;> rename_i h1 h2
    · exact iff_of_false (by simp) h1
    · exact iff_of_false (by simp) h1

theorem strCompare_swap (a b : String) : (strCompare a b).swap = strCompare b a := by
  unfold strCompare
  by_cases h1 : a < b
  · simp only [if_pos h1, if_neg (asymm h1)]
    rfl
  · by_cases h2 : b < a
    · simp only [if_neg h1, if_pos h2]
      rfl
    · simp only [if_neg h1, if_neg h2]
      rfl

theorem prCompare_eq_eq {a b : PRVersion} : prCompare a b = .eq ↔ a = b := by
  cases a <;> cases b <;> simp [prCompare, Nat.compare_eq_eq, strCompare_eq_eq]

theorem prCompare_swap (a b : PRVersion) : (prCompare a b).swap = prCompare b a := by
  cases a <;> cases b
  · exact Nat.compare_swap _ _
  · rfl
  · rfl
  · exact strCompare_swap _ _

theorem prCompare_lt_trans {a b c : PRVersion}
    (h1 : prCompare a b = .lt) (h2 : prCompare b c = .lt) : prCompare a c = .lt := by
  cases a <;> cases b <;> cases c <;>
    simp_all [prCompare, Nat.compare_eq_lt, strCompare_eq_lt]
  · omega
  · exact lt_trans h1 h2

theorem Ordering.then_swap (a b : Ordering) : (a.then b).swap = a.swap.then b.swap := by
  cases a <;> rfl

theorem preCompare_eq_eq : ∀ {p q : List PRVersion}, preCompare p q = .eq ↔ p = q
  | [], [] => by simp [preCompare]
  | [], _ :: _ => by simp [preCompare]
  | _ :: _, [] => by simp [preCompare]
  | a :: as, b :: bs => by
    rw [preCompare, Ordering.then_eq_eq, prCompare_eq_eq, preCompare_eq_eq]
    simp

theorem preCompare_swap : ∀ (p q : List PRVersion), (preCompare p q).swap = preCompare q p
  | [], [] => rfl
  | [], _ :: _ => rfl
  | _ :: _, [] => rfl
  | a :: as, b :: bs => by
    rw [preCompare, preCompare, Ordering.then_swap, prCompare_swap, preCompare_swap as bs]

theorem preCompare_lt_trans : ∀ {p q r : List PRVersion},
    preCompare p q = .lt → preCompare q r = .lt → preCompare p r = .lt
  | [], [], _, h1, _ => by simp [preCompare] at h1
  | [], _ :: _, [], _, h2 => by simp [preCompare] at h2
  | [], _ :: _, _ :: _, _, _ => by simp [preCompare]
  | _ :: _, [], _, h1, _ => by simp [preCompare] at h1
  | _ :: _, _ :: _, [], _, h2 => by simp [preCompare] at h2
  | a :: as, b :: bs, c :: cs, h1, h2 => by
    rw [preCompare, Ordering.then_eq_lt] at h1 h2 ⊢
    rcases h1 with h1 | ⟨h1, h1'⟩
    · rcases h2 with h2 | ⟨h2, _⟩
      · exact Or.inl (prCompare_lt_trans h1 h2)
      · rw [prCompare_eq_eq] at h2
        subst h2
        exact Or.inl h1
    · rw [prCompare_eq_eq] at h1
      subst h1
      rcases h2 with h2 | ⟨h2, h2'⟩
      · exact Or.inl h2
      · exact Or.inr ⟨h2, preCompare_lt_trans h1' h2'⟩

theorem preTop_eq_eq : ∀ {p q : List PRVersion}, preTop p q = .eq ↔ p = q
  | [], [] => by simp [preTop]
  | [], _ :: _ => by simp [preTop]
  | _ :: _, [] => by simp [preTop]
  | _ :: _, _ :: _ => by rw [preTop]; exact preCompare_eq_eq

theorem preTop_swap : ∀ (p q : List PRVersion), (preTop p q).swap = preTop q p
  | [], [] => rfl
  | [], _ :: _ => rfl
  | _ :: _, [] => rfl
  | _ :: _, _ :: _ => by rw [preTop, preTop]; exact preCompare_swap _ _

theorem preTop_lt_trans : ∀ {p q r : List PRVersion},
    preTop p q = .lt → preTop q r = .lt → preTop p r = .lt
  | [], [], _, h1, _ => by simp [preTop] at h1
  | [], _ :: _, _, h1, _ => by simp [preTop] at h1
  | _ :: _, [], [], _, h2 => by simp [preTop] at h2
  | _ :: _, [], _ :: _, _, h2 => by simp [preTop] at h2
  | a :: as, b :: bs, [], _, _ => by simp [preTop]
  | a :: as, b :: bs, c :: cs, h1, h2 => by
    rw [preTop] at h1 h2 ⊢
    exact preCompare_lt_trans h1 h2

theorem Version.comp_self (v : Version) : v.comp v = .eq := by
  unfold Version.comp
  rw [Nat.compare_eq_eq.mpr rfl, Nat.compare_eq_eq.mpr rfl, Nat.compare_eq_eq.mpr rfl,
    preTop_eq_eq.mpr rfl]
  rfl

theorem Version.comp_swap (v w : Version) : (v.comp w).swap = w.comp v := by
  unfold Version.comp
  rw [Ordering.then_swap, Ordering.then_swap, Ordering.then_swap,
    Nat.compare_swap, Nat.compare_swap, Nat.compare_swap, preTop_swap]

theorem Version.comp_eq_iff {v w : Version} :
    v.comp w = .eq ↔ v.major = w.major ∧ v.minor = w.minor ∧ v.patch = w.patch ∧ v.pre = w.pre := by
  unfold Version.comp
  rw [Ordering.then_eq_eq, Ordering.then_eq_eq, Ordering.then_eq_eq,
    Nat.compare_eq_eq, Nat.compare_eq_eq, Nat.compare_eq_eq, preTop_eq_eq]

theorem Version.lt_iff {v w : Version} :
    v.lt w ↔ v.major < w.major ∨ (v.major = w.major ∧
      (v.minor < w.minor ∨ (v.minor = w.minor ∧
        (v.patch < w.patch ∨ (v.patch = w.patch ∧ preTop v.pre w.pre = .lt))))) := by
  unfold Version.lt Version.comp
  rw [Ordering.then_eq_lt, Ordering.then_eq_lt, Ordering.then_eq_lt,
    Nat.compare_eq_lt, Nat.compare_eq_lt, Nat.compare_eq_lt,
    Nat.compare_eq_eq, Nat.compare_eq_eq, Nat.compare_eq_eq]

theorem Version.lt_trans {u v w : Version} (h1 : u.lt v) (h2 : v.lt w) : u.lt w := by
  rw [Version.lt_iff] at h1 h2 ⊢
  rcases h1 with h1 | ⟨e1, h1⟩
  · rcases h2 with h2 | ⟨e2, _⟩
    · exact Or.inl (Nat.lt_trans h1 h2)
    · exact Or.inl (e2 ▸ h1)
  · rcases h2 with h2 | ⟨e2, h2⟩
    · exact Or.inl (e1 ▸ h2)
    · refine Or.inr ⟨e1.trans e2, ?_⟩
      rcases h1 with h1 | ⟨f1, h1⟩
      · rcases h2 with h2 | ⟨f2, _⟩
        · exact Or.inl (Nat.lt_trans h1 h2)
        · exact Or.inl (f2 ▸ h1)
      · rcases h2 with h2 | ⟨f2, h2⟩
        · exact Or.inl (f1 ▸ h2)
        · refine Or.inr ⟨f1.trans f2, ?_⟩
          rcases h1 with h1 | ⟨g1, h1⟩
          · rcases h2 with h2 | ⟨g2, _⟩
            · exact Or.inl (Nat.lt_trans h1 h2)
            · exact Or.inl (g2 ▸ h1)
          · rcases h2 with h2 | ⟨g2, h2⟩
            · exact Or.inl (g1 ▸ h2)
            · exact Or.inr ⟨g1.trans g2, preTop_lt_trans h1 h2⟩

theorem Version.lt_asymm {v w : Version} (h : v.lt w) : ¬ w.lt v := by
  intro h2
  unfold Version.lt at h h2
  rw [← Version.comp_swap v w, h] at h2
  exact absurd h2 (by simp [Ordering.swap])

theorem Version.lt_irrefl (v : Version) : ¬ v.lt v := by
  intro h
  unfold Version.lt at h
  rw [Version.comp_self] at h
  exact absurd h (by simp)

theorem Version.peq_symm {v w : Version} (h : v.peq w) : w.peq v := by
  unfold Version.peq at h ⊢
  rw [← Version.comp_swap v w, h]
  rfl

theorem Version.trichotomy (v w : Version) : v.lt w ∨ v.peq w ∨ w.lt v := by
  unfold Version.lt Version.peq
  cases h : v.comp w
  · exact Or.inl rfl
  · exact Or.inr (Or.inl rfl)
  · refine Or.inr (Or.inr ?_)
    rw [← Version.comp_swap v w, h]
    rfl

theorem Version.not_lt_of_peq {v w : Version} (h : v.peq w) : ¬ v.lt w := by
  intro h2
  unfold Version.peq at h
  unfold Version.lt at h2
  rw [h] at h2
  exact absurd h2 (by simp)

theorem Version.lt_of_not_lt_of_not_peq {v w : Version} (h1 : ¬ v.lt w) (h2 : ¬ v.peq w) :
    w.lt v := by
  rcases Version.trichotomy v w with h | h | h
  · exact absurd h h1
  · exact absurd h h2
  · exact h

/-- Decimal digit as a character. -/
def digitChar : Nat → Char
  | 0 => '0'
  | 1 => '1'
  | 2 => '2'
  | 3 => '3'
  | 4 => '4'
  | 5 => '5'
  | 6 => '6'
  | 7 => '7'
  | 8 => '8'
  | 9 => '9'
  | _ => '*'

/-- Accumulator loop producing decimal digits most-significant-first; the
fuel argument only bounds the recursion depth. -/
def natToCharsCore : Nat → Nat → List Char → List Char
  | 0, _, acc => acc
  | fuel + 1, n, acc =>
    if n / 10 = 0 then digitChar (n % 10) :: acc
    else natToCharsCore fuel (n / 10) (digitChar (n % 10) :: acc)

/-- Characters of the usual decimal rendering of a natural number (most
significant digit first), modelling Go `%d` formatting. -/
def natToChars (n : Nat) : List Char :=
  natToCharsCore (n + 1) n []

theorem natToCharsCore_eq_digits :
    ∀ (fuel n : Nat) (acc : List Char), 0 < n → n ≤ fuel →
      natToCharsCore fuel n acc = ((Nat.digits 10 n).map digitChar).reverse ++ acc
  | 0, n, _, hn, hf => absurd (Nat.lt_of_lt_of_le hn hf) (Nat.lt_irrefl 0)
  | fuel + 1, n, acc, hn, hf => by
    rw [natToCharsCore]
    rw [Nat.digits_def' (by norm_num : (1 : Nat) < 10) hn]
    by_cases hq : n / 10 = 0
    · rw [if_pos hq, hq]
      simp
    · rw [if_neg hq]
      have hq' : 0 < n / 10 := Nat.pos_of_ne_zero hq
      have hlt : n / 10 < n := Nat.div_lt_self hn (by norm_num)
      have hfe : n / 10 ≤ fuel := Nat.le_of_lt_succ (Nat.lt_of_lt_of_le hlt hf)
      rw [natToCharsCore_eq_digits fuel (n / 10) _ hq' hfe]
      simp

theorem natToChars_eq (n : Nat) :
    natToChars n = if n = 0 then ['0'] else ((Nat.digits 10 n).map digitChar).reverse := by
  by_cases hn : n = 0
  · rw [if_pos hn, hn]
    rfl
  · rw [if_neg hn]
    unfold natToChars
    rw [natToCharsCore_eq_digits (n + 1) n [] (Nat.pos_of_ne_zero hn) (Nat.le_succ n)]
    simp

/-- Decimal rendering of a natural number, modelling Go `%d` formatting. -/
def natToString (n : Nat) : String :=
  String.mk (natToChars n)

/-- String form of a prerelease identifier, as blang/semver renders it. -/
def prString : PRVersion → String
  | .num n => natToString n
  | .alnum s => s

/-- String form of a semantic version, as blang/semver `Version.String`:
`major.minor.patch`, then `-` and the dot-joined prerelease identifiers if
any, then `+` and the dot-joined build identifiers if any. -/
def Version.vString (v : Version) : String :=
  natToString v.major ++ "." ++ natToString v.minor ++ "." ++ natToString v.patch
    ++ (if v.pre = [] then "" else "-" ++ String.intercalate "." (v.pre.map prString))
    ++ (if v.build = [] then "" else "+" ++ String.intercalate "." v.build)

/-- Go `stripBuildMetadata`: clear the build metadata from a version and
stringify the result, used for ambiguity (collision) detection. -/
def stripBuildMetadata (v : Version) : String :=
  Version.vString { v with build := [] }

theorem stripBuildMetadata_eq_of_peq {v w : Version} (h : v.peq w) :
    stripBuildMetadata v = stripBuildMetadata w := by
  unfold Version.peq at h
  rw [Version.comp_eq_iff] at h
  obtain ⟨h1, h2, h3, h4⟩ := h
  unfold stripBuildMetadata Version.vString
  simp only [h1, h2, h3, h4]

/-- Modelled from the spec: the three stability tiers (channel archetypes)
candidate, fast and stable; their Go declarations are not in the provided
sources. -/
inductive ChannelArchetype where
  | candidate
  | fast
  | stable
deriving DecidableEq, Repr

/-- Modelled from the spec: the fixed tier priority order, stable most
preferred and candidate least preferred. -/
def channelPriorities : ChannelArchetype → Nat
  | .candidate => 0
  | .fast => 1
  | .stable => 2

/-- Name of a channel archetype as it appears in generated channel names. -/
def archetypeStr : ChannelArchetype → String
  | .candidate => "candidate"
  | .fast => "fast"
  | .stable => "stable"

/-- Modelled from the spec: the two stream kinds (major, minor) that
partition generated channels. -/
inductive StreamType where
  | major
  | minor
deriving DecidableEq, Repr

/-- Modelled from the spec: stream kinds carry a fixed priority order used
only to partition the placement list during linking; major sorts before
minor. -/
def streamTypePriorities : StreamType → Nat
  | .major => 0
  | .minor => 1

/-- Go `getMinorVersion`: truncate a version to its major and minor
numbers. -/
def getMinorVersion (v : Version) : Version :=
  { major := v.major, minor := v.minor, patch := 0, pre := [], build := [] }

/-- Go `getMajorVersion`: truncate a version to its major number. -/
def getMajorVersion (v : Version) : Version :=
  { major := v.major, minor := 0, patch := 0, pre := [], build := [] }

/-- Go `channelNameFromMajor`: `"<tier>-v<major>"`. -/
def channelNameFromMajor (arch : ChannelArchetype) (v : Version) : String :=
  archetypeStr arch ++ "-v" ++ natToString v.major

/-- Go `channelNameFromMinor`: `"<tier>-v<major>.<minor>"`. -/
def channelNameFromMinor (arch : ChannelArchetype) (v : Version) : String :=
  archetypeStr arch ++ "-v" ++ natToString v.major ++ "." ++ natToString v.minor

theorem digitChar_mem_digits {d : Nat} (h : d < 10) :
    digitChar d ∈ ['0', '1', '2', '3', '4', '5', '6', '7', '8', '9'] := by
  have : ∀ e < 10, digitChar e ∈ ['0', '1', '2', '3', '4', '5', '6', '7', '8', '9'] := by
    decide
  exact this d h

theorem digitChar_inj {d e : Nat} (hd : d < 10) (he : e < 10)
    (h : digitChar d = digitChar e) : d = e := by
  have : ∀ a < 10, ∀ b < 10, digitChar a = digitChar b → a = b := by decide
  exact this d hd e he h

theorem mem_natToChars_digit {c : Char} {n : Nat} (h : c ∈ natToChars n) :
    c ∈ ['0', '1', '2', '3', '4', '5', '6', '7', '8', '9'] := by
  rw [natToChars_eq] at h
  split at h
  · simp at h
    subst h
    decide
  · rw [List.mem_reverse, List.mem_map] at h
    obtain ⟨d, hd, rfl⟩ := h
    exact digitChar_mem_digits (Nat.digits_lt_base (by norm_num) hd)

theorem dot_not_mem_natToChars (n : Nat) : '.' ∉ natToChars n := by
  intro h
  have := mem_natToChars_digit h
  simp at this

theorem dash_not_mem_natToChars (n : Nat) : '-' ∉ natToChars n := by
  intro h
  have := mem_natToChars_digit h
  simp at this

theorem mapDigit_inj : ∀ {xs ys : List Nat}, (∀ d ∈ xs, d < 10) → (∀ d ∈ ys, d < 10) →
    xs.map digitChar = ys.map digitChar → xs = ys
  | [], [], _, _, _ => rfl
  | [], _ :: _, _, _, h => by simp at h
  | _ :: _, [], _, _, h => by simp at h
  | x :: xs, y :: ys, hx, hy, h => by
    simp only [List.map_cons, List.cons.injEq] at h
    have h1 := digitChar_inj (hx x (by simp)) (hy y (by simp)) h.1
    have h2 := mapDigit_inj (fun d hd => hx d (by simp [hd])) (fun d hd => hy d (by simp [hd])) h.2
    rw [h1, h2]

theorem natToChars_inj {m n : Nat} (h : natToChars m = natToChars n) : m = n := by
  have digitsLt : ∀ (a : Nat), ∀ d ∈ Nat.digits 10 a, d < 10 :=
    fun a d hd => Nat.digits_lt_base (by norm_num) hd
  have zeroLt : ∀ d ∈ [(0 : Nat)], d < 10 := by simp
  rw [natToChars_eq, natToChars_eq] at h
  by_cases hm : m = 0 <;> by_cases hn : n = 0
  · rw [hm, hn]
  · rw [if_pos hm, if_neg hn] at h
    have h' := congrArg List.reverse h
    simp only [List.reverse_reverse] at h'
    have : Nat.digits 10 n = [0] := by
      refine mapDigit_inj (digitsLt n) zeroLt ?_
      rw [← h']
      rfl
    have : n = Nat.ofDigits 10 [0] := by rw [← this, Nat.ofDigits_digits]
    simp [Nat.ofDigits] at this
    exact absurd this hn
  · rw [if_neg hm, if_pos hn] at h
    have h' := congrArg List.reverse h
    simp only [List.reverse_reverse] at h'
    have : Nat.digits 10 m = [0] := by
      refine mapDigit_inj (digitsLt m) zeroLt ?_
      rw [h']
      rfl
    have : m = Nat.ofDigits 10 [0] := by rw [← this, Nat.ofDigits_digits]
    simp [Nat.ofDigits] at this
    exact absurd this hm
  · rw [if_neg hm, if_neg hn] at h
    have h' := congrArg List.reverse h
    simp only [List.reverse_reverse] at h'
    have := mapDigit_inj (digitsLt m) (digitsLt n) h'
    calc m = Nat.ofDigits 10 (Nat.digits 10 m) := (Nat.ofDigits_digits 10 m).symm
      _ = Nat.ofDigits 10 (Nat.digits 10 n) := by rw [this]
      _ = n := Nat.ofDigits_digits 10 n

theorem natToString_inj {m n : Nat} (h : natToString m = natToString n) : m = n := by
  unfold natToString at h
  injection h with h
  exact natToChars_inj h

/-- Splitting a character list at a separator character that occurs in
neither left part determines both parts. -/
theorem sepSplit : ∀ (xs xs' ys ys' : List Char), '.' ∉ xs → '.' ∉ xs' →
    xs ++ '.' :: ys = xs' ++ '.' :: ys' → xs = xs' ∧ ys = ys'
  | [], [], _, _, _, _, h => by simpa using h
  | [], x' :: xs', _, _, _, hx', h => by
    simp only [List.nil_append, List.cons_append, List.cons.injEq] at h
    exact absurd (h.1 ▸ List.mem_cons_self x' xs') (fun hc => hx' hc)
  | x :: xs, [], _, _, hx, _, h => by
    simp only [List.nil_append, List.cons_append, List.cons.injEq] at h
    exact absurd (h.1 ▸ List.mem_cons_self x xs) (fun hc => hx hc)
  | x :: xs, x' :: xs', ys, ys', hx, hx', h => by
    simp only [List.cons_append, List.cons.injEq] at h
    have := sepSplit xs xs' ys ys' (fun hc => hx (List.mem_cons_of_mem x hc))
      (fun hc => hx' (List.mem_cons_of_mem x' hc)) h.2
    exact ⟨by rw [h.1, this.1], this.2⟩

theorem archetypeStrData_split (a b : ChannelArchetype) (r s : List Char)
    (h : (archetypeStr a).data ++ r = (archetypeStr b).data ++ s) : a = b ∧ r = s := by
  cases a <;> cases b <;> simp only [archetypeStr] at h <;>
    first
      | (exact ⟨rfl, by simpa using h⟩)
      | (exfalso; simp at h)

theorem channelNameFromMinor_inj {a b : ChannelArchetype} {v w : Version}
    (h : channelNameFromMinor a v = channelNameFromMinor b w) :
    a = b ∧ v.major = w.major ∧ v.minor = w.minor := by
  unfold channelNameFromMinor at h
  have hd := congrArg String.data h
  simp only [String.data_append, List.append_assoc] at hd
  obtain ⟨hab, hrest⟩ := archetypeStrData_split a b _ _ hd
  refine ⟨hab, ?_⟩
  have hrest' : natToChars v.major ++ '.' :: (natToChars v.minor) =
      natToChars w.major ++ '.' :: (natToChars w.minor) := by
    have : "-v".data ++ (natToChars v.major ++ ('.' :: natToChars v.minor)) =
        "-v".data ++ (natToChars w.major ++ ('.' :: natToChars w.minor)) := by
      simpa [natToString, natToChars] using hrest
    simpa using this
  obtain ⟨h1, h2⟩ := sepSplit _ _ _ _ (dot_not_mem_natToChars v.major)
    (dot_not_mem_natToChars w.major) hrest'
  exact ⟨natToChars_inj h1, natToChars_inj h2⟩

theorem channelNameFromMajor_inj {a b : ChannelArchetype} {v w : Version}
    (h : channelNameFromMajor a v = channelNameFromMajor b w) :
    a = b ∧ v.major = w.major := by
  unfold channelNameFromMajor at h
  have hd := congrArg String.data h
  simp only [String.data_append, List.append_assoc] at hd
  obtain ⟨hab, hrest⟩ := archetypeStrData_split a b _ _ hd
  refine ⟨hab, ?_⟩
  have hrest' : natToChars v.major = natToChars w.major := by
    simpa [natToString] using hrest
  exact natToChars_inj hrest'

theorem channelNameFromMajor_ne_minor (a b : ChannelArchetype) (v w : Version) :
    channelNameFromMajor a v ≠ channelNameFromMinor b w := by
  intro h
  unfold channelNameFromMajor channelNameFromMinor at h
  have hd := congrArg String.data h
  simp only [String.data_append, List.append_assoc] at hd
  obtain ⟨hab, hrest⟩ := archetypeStrData_split a b _ _ hd
  have hrest' : natToChars v.major = natToChars w.major ++ ('.' :: natToChars w.minor) := by
    have : "-v".data ++ natToChars v.major =
        "-v".data ++ (natToChars w.major ++ ('.' :: natToChars w.minor)) := by
      simpa [natToString, natToChars] using hrest
    simpa using this
  have : '.' ∈ natToChars v.major := by
    rw [hrest']
    simp
  exact dot_not_mem_natToChars v.major this

/-- Channel name for a stream kind, dispatching to Go `channelNameFromMajor`
or `channelNameFromMinor`. -/
def channelName : StreamType → ChannelArchetype → Version → String
  | .major, a, v => channelNameFromMajor a v
  | .minor, a, v => channelNameFromMinor a v

/-- Modelled from the spec: the output package record
(`declcfg.Package`), whose Go declaration is not in the provided sources:
schema, name and default channel name. -/
structure Package where
  schema : String
  name : String
  defaultChannel : String
deriving DecidableEq, Repr

/-- Modelled from the spec: a channel entry (`declcfg.ChannelEntry`), whose
Go declaration is not in the provided sources: bundle name, optional
`replaces` target (empty string when absent) and `skips` list.  The
`skipRange` field is omitted because the rendered code never reads or
writes it. -/
structure ChannelEntry where
  name : String
  replaces : String := ""
  skips : List String := []
deriving DecidableEq, Repr

/-- Modelled from the spec: a channel record (`declcfg.Channel`), whose Go
declaration is not in the provided sources: schema, name, package name and
the ordered entry list. -/
structure Channel where
  schema : String
  name : String
  pkg : String
  entries : List ChannelEntry
deriving DecidableEq, Repr

/-- Go `newPackage`. -/
def newPackage (name : String) : Package :=
  { schema := "olm.package", name := name, defaultChannel := "" }

/-- Go `newChannel`. -/
def newChannel (pkgName : String) (chName : String) : Channel :=
  { schema := "olm.channel", name := chName, pkg := pkgName, entries := [] }

/-- Go `highwaterChannel`: the running most-preferred channel head. -/
structure HighwaterChannel where
  archetype : ChannelArchetype
  version : Version
  name : String
deriving DecidableEq, Repr

/-- Modelled from the spec: the highwater comparison `highwaterChannel.gt`,
whose Go declaration is not in the provided sources; the spec describes it
as lexicographic on (tier priority, version). -/
def HighwaterChannel.hwGt (h ih : HighwaterChannel) : Prop :=
  channelPriorities ih.archetype < channelPriorities h.archetype ∨
    (channelPriorities h.archetype = channelPriorities ih.archetype ∧ ih.version.lt h.version)

instance (h ih : HighwaterChannel) : Decidable (h.hwGt ih) := by
  unfold HighwaterChannel.hwGt; infer_instance

/-- Go `entryTuple`: one bundle placement, consumed by the edge linker. -/
structure EntryTuple where
  arch : ChannelArchetype
  kind : StreamType
  parent : String
  name : String
  version : Version
  index : Nat
deriving DecidableEq, Repr

/-- Lookup in the channel store (Go `unlinkedChannels` map, keyed by
channel name; the store is an association list whose keys are unique). -/
def lookupChan : List (String × Channel) → String → Option Channel
  | [], _ => none
  | (k, c) :: rest, n => if k = n then some c else lookupChan rest n

/-- Update of the channel stored under a key, leaving other keys
unchanged (Go mutation through the `*declcfg.Channel` map values). -/
def updateChan (m : List (String × Channel)) (n : String) (f : Channel → Channel) :
    List (String × Channel) :=
  match m with
  | [] => []
  | (k, c) :: rest => if k = n then (k, f c) :: rest else (k, c) :: updateChan rest n f

/-- Modification of a list element at an index, leaving the list unchanged
when the index is out of range (Go `prevChannel.Entries[index]` writes; the
code only ever uses indices recorded at entry creation, which are in
range). -/
def modifyIdx : List ChannelEntry → Nat → (ChannelEntry → ChannelEntry) → List ChannelEntry
  | [], _, _ => []
  | e :: rest, 0, f => f e :: rest
  | e :: rest, i + 1, f => e :: modifyIdx rest i f

/-- Insertion into a string set (k8s `sets.String.Insert`), represented as
a duplicate-free list. -/
def strInsert (s : List String) (x : String) : List String :=
  if x ∈ s then s else x :: s

/-- Sorted list of a string set (k8s `sets.String.List`, which returns the
elements in ascending string order). -/
def strSortedList (s : List String) : List String :=
  List.insertionSort (fun a b : String => ¬ b < a) s

/-- Per-tier mapping from bundle name to parsed version
(Go `map[string]semver.Version`), as an association list with unique keys;
the list order stands for one possible Go map enumeration order. -/
abbrev VersionMap := List (String × Version)

/-- Lookup by bundle name in a per-tier version mapping. -/
def lookupV : VersionMap → String → Option Version
  | [], _ => none
  | (k, v) :: rest, n => if k = n then some v else lookupV rest n

/-- Go `bundleVersions`: the three per-tier version mappings. -/
structure BundleVersions where
  candidate : VersionMap
  fast : VersionMap
  stable : VersionMap
deriving DecidableEq, Repr

/-- Tier selection on `BundleVersions`. -/
def BundleVersions.get (bv : BundleVersions) : ChannelArchetype → VersionMap
  | .candidate => bv.candidate
  | .fast => bv.fast
  | .stable => bv.stable

/-- Go `semverTemplate`: the loaded template (tier bundle image lists and
the two stream flags) together with the package name established during
extraction. -/
structure SemverTemplate where
  generateMajorChannels : Bool
  generateMinorChannels : Bool
  candidateBundles : List String
  fastBundles : List String
  stableBundles : List String
  pkg : String := ""
deriving DecidableEq, Repr

/-- Stream kinds enabled by the template flags, in the order given by the
`streamOrder` enumeration oracle (Go ranges over the two-key
`channelNameKeys` map, whose enumeration order is unspecified). -/
def enabledKinds (sv : SemverTemplate) (streamOrder : List StreamType) : List StreamType :=
  streamOrder.filter fun k =>
    match k with
    | .major => sv.generateMajorChannels
    | .minor => sv.generateMinorChannels

/-- State threaded through Go `generateChannels`: the highwater marker, the
channel store in creation order, and the accumulated placement tuples. -/
structure GenState where
  hwc : HighwaterChannel
  unlinked : List (String × Channel)
  edges : List EntryTuple
deriving Repr

/-- Body of the per-stream-kind loop in Go `generateChannels`: retrieve or
create the channel, update the highwater marker on creation, append the
entry and record the placement tuple. -/
def addEntryForKind (pkg : String) (arch : ChannelArchetype) (bName : String) (v : Version)
    (st : GenState) (kind : StreamType) : GenState :=
  match lookupChan st.unlinked (channelName kind arch v) with
  | none =>
    { hwc :=
        if HighwaterChannel.hwGt ⟨arch, v, channelName kind arch v⟩ st.hwc then
          ⟨arch, v, channelName kind arch v⟩
        else st.hwc
      unlinked := st.unlinked ++
        [(channelName kind arch v,
          { newChannel pkg (channelName kind arch v) with entries := [{ name := bName }] })]
      edges := st.edges ++ [⟨arch, kind, channelName kind arch v, bName, v, 0⟩] }
  | some ch =>
    { hwc := st.hwc
      unlinked := updateChan st.unlinked (channelName kind arch v)
        (fun c => { c with entries := c.entries ++ [{ name := bName }] })
      edges := st.edges ++ [⟨arch, kind, channelName kind arch v, bName, v, ch.entries.length⟩] }

/-- Body of the per-bundle loop in Go `generateChannels`. -/
def addEntriesForBundle (pkg : String) (arch : ChannelArchetype) (kinds : List StreamType)
    (st : GenState) (b : String × Version) : GenState :=
  kinds.foldl (addEntryForKind pkg arch b.1 b.2) st

/-- Ascending-version sort of a tier's bundles, as the `sort.Slice` call in
Go `generateChannels` (comparator `bundles[i].LT(bundles[j])`). -/
def sortBundles (m : VersionMap) : VersionMap :=
  List.insertionSort (fun a b : String × Version => ¬ b.2.lt a.2) m

/-- Per-tier loop body of Go `generateChannels`: sort the tier's bundles by
ascending version and process each (an empty tier contributes nothing). -/
def processArchetype (pkg : String) (kinds : List StreamType) (st : GenState)
    (arch : ChannelArchetype) (m : VersionMap) : GenState :=
  (sortBundles m).foldl (addEntriesForBundle pkg arch kinds) st

/-- Initial highwater marker in Go `generateChannels`: the least-priority
archetype at version 0.0.0 with an empty channel name. -/
def initialHwc : HighwaterChannel :=
  ⟨.candidate, { major := 0, minor := 0, patch := 0 }, ""⟩

/-- Synthesis phase of Go `generateChannels`: walk the tiers in ascending
priority order and accumulate channels, placements and the highwater
marker. -/
def generateChannelsState (sv : SemverTemplate) (streamOrder : List StreamType)
    (bv : BundleVersions) : GenState :=
  [ChannelArchetype.candidate, .fast, .stable].foldl
    (fun st arch => processArchetype sv.pkg (enabledKinds sv streamOrder) st arch (bv.get arch))
    ⟨initialHwc, [], []⟩

/-- Comparator of Go `linkChannels`' `sort.Slice` call: tier priority, then
stream-kind priority, then version precedence. -/
def tupleLess (a b : EntryTuple) : Prop :=
  channelPriorities a.arch < channelPriorities b.arch ∨
    (channelPriorities a.arch = channelPriorities b.arch ∧
      (streamTypePriorities a.kind < streamTypePriorities b.kind ∨
        (streamTypePriorities a.kind = streamTypePriorities b.kind ∧ a.version.lt b.version)))

instance (a b : EntryTuple) : Decidable (tupleLess a b) := by
  unfold tupleLess; infer_instance

/-- Sorting of the placement tuples, as Go `linkChannels` sorts `entries`
(the result is sorted so that no later element is `tupleLess` than an
earlier one). -/
def sortEntries (l : List EntryTuple) : List EntryTuple :=
  List.insertionSort (fun a b : EntryTuple => ¬ tupleLess b a) l

/-- Edge finalization in Go `linkChannels`: set the entry's `replaces` to
the accumulated previous-Y-stream head and its `skips` to the sorted
accumulated skip set, with the `replaces` target removed from the skip
list when present. -/
def finalizeAt (m : List (String × Channel)) (t : EntryTuple) (prevZMax : String)
    (curSkips : List String) : List (String × Channel) :=
  updateChan m t.parent fun ch =>
    { ch with
      entries := modifyIdx ch.entries t.index fun e =>
        { e with
          replaces := prevZMax
          skips :=
            if prevZMax ∈ curSkips then
              strSortedList (curSkips.filter fun x => ¬ x = prevZMax)
            else strSortedList curSkips } }

/-- State threaded through the linking scan: the channel store plus the
`prevZMax` and `curSkips` accumulators. -/
structure LinkState where
  unlinked : List (String × Channel)
  prevZMax : String
  curSkips : List String
deriving Repr

/-- One step of the linking scan in Go `linkChannels`, classifying the
transition between two adjacent sorted tuples and finalizing the previous
tuple's entry on any non-patch change. -/
def linkStep (prev cur : EntryTuple) (st : LinkState) : LinkState :=
  let archChange := ¬ prev.arch = cur.arch
  let kindChange := ¬ prev.kind = cur.kind
  let xChange := ¬ (getMajorVersion prev.version).peq (getMajorVersion cur.version)
  let yChange := ¬ (getMinorVersion prev.version).peq (getMinorVersion cur.version)
  let unlinked' :=
    if archChange ∨ kindChange ∨ xChange ∨ yChange then
      finalizeAt st.unlinked prev st.prevZMax st.curSkips
    else st.unlinked
  if archChange ∨ kindChange ∨ xChange then
    { unlinked := unlinked', prevZMax := "", curSkips := [] }
  else
    { unlinked := unlinked'
      prevZMax := if yChange then prev.name else st.prevZMax
      curSkips := strInsert st.curSkips prev.name }

/-- The linking scan over the sorted tuple list, followed by the final
("last entry") finalization that Go `linkChannels` performs after its
loop; `prev` is the tuple whose successor is the head of the list. -/
def linkScanAll : EntryTuple → List EntryTuple → LinkState → List (String × Channel)
  | prev, [], st => finalizeAt st.unlinked prev st.prevZMax st.curSkips
  | prev, cur :: rest, st => linkScanAll cur rest (linkStep prev cur st)

/-- Go `linkChannels`: sort the placements, scan them assigning edges, and
return the channels in the order given by the `chanOrder` enumeration
oracle (Go ranges over the channel map, whose enumeration order is
unspecified).  The result is `none` when the placement list is empty,
modelling the out-of-range access `entries[len(entries)-1]` that Go would
perform on an empty slice. -/
def linkChannels (unlinked : List (String × Channel)) (entries : List EntryTuple)
    (chanOrder : List String) : Option (List Channel) :=
  match sortEntries entries with
  | [] => none
  | t :: rest =>
    some (chanOrder.filterMap (lookupChan (linkScanAll t rest ⟨unlinked, "", []⟩)))

/-- Result of Go `generateChannels`: the linked channels plus the default
channel name recorded from the highwater marker. -/
structure GenOut where
  channels : Option (List Channel)
  defaultChannel : String
deriving Repr

/-- Go `generateChannels` in full: synthesis followed by linking. -/
def generateChannels (sv : SemverTemplate) (streamOrder : List StreamType)
    (chanOrder : List String) (bv : BundleVersions) : GenOut :=
  let st := generateChannelsState sv streamOrder bv
  ⟨linkChannels st.unlinked st.edges chanOrder, st.hwc.name⟩

/-- Double-quoted rendering of a string, modelling Go `%q` formatting for
the strings appearing in error messages (none of which need escaping). -/
def quoteStr (s : String) : String :=
  "\"" ++ s ++ "\""

instance exceptDecEq {ε α : Type} [DecidableEq ε] [DecidableEq α] :
    DecidableEq (Except ε α) := fun a b =>
  match a, b with
  | .error e, .error f =>
    if h : e = f then .isTrue (by rw [h])
    else .isFalse (by intro hc; injection hc; contradiction)
  | .error _, .ok _ => .isFalse (by intro hc; exact Except.noConfusion hc)
  | .ok _, .error _ => .isFalse (by intro hc; exact Except.noConfusion hc)
  | .ok x, .ok y =>
    if h : x = y then .isTrue (by rw [h])
    else .isFalse (by intro hc; injection hc; contradiction)

/-- One parsed package property of a rendered bundle.  The external
property parser and the external blang/semver string parser (spec §6) are
modelled by their outcomes: the raw version string together with the parse
result. -/
structure PkgProp where
  packageName : String
  versionStr : String
  parsed : Except String Version
deriving DecidableEq, Repr

/-- Rendered bundle as produced by the external renderer (spec §6): name,
image reference, and the outcome of parsing its property blob into package
properties (`property.Parse`). -/
structure RBundle where
  name : String
  image : String
  props : Except String (List PkgProp)
deriving DecidableEq, Repr

/-- Modelled from the spec: the produced catalog fragment
(`declcfg.DeclarativeConfig`), whose Go declaration is not in the provided
sources; the `Others` field is omitted because the rendered code only
concatenates it. -/
structure DeclCfg where
  packages : List Package
  channels : List Channel
  bundles : List RBundle
deriving DecidableEq, Repr

/-- First rendered bundle whose image matches, as the linear scan in Go
`getVersionsFromChannel`. -/
def findBundle : List RBundle → String → Option RBundle
  | [], _ => none
  | b :: rest, img => if b.image = img then some b else findBundle rest img

/-- Loop of Go `getVersionsFromChannel` over one tier's template bundle
list: resolve each image against the rendered bundles, demand exactly one
package property with a parseable version, establish or check the package
name (appending a new package record the first time), reject duplicate
bundle names within the tier, and accumulate the name-to-version map. -/
def extractLoop (bundles : List RBundle) :
    List String → VersionMap → String → List Package →
    Except String (VersionMap × String × List Package)
  | [], entries, pkg, pkgs => .ok (entries, pkg, pkgs)
  | img :: rest, entries, pkg, pkgs =>
    match findBundle bundles img with
    | none => .error ("supplied bundle image name " ++ quoteStr img ++
        " not found in rendered bundle images")
    | some b =>
      match b.props with
      | .error e => .error ("parse properties for bundle " ++ quoteStr b.name ++ ": " ++ e)
      | .ok props =>
        match props with
        | [p] =>
          match p.parsed with
          | .error e => .error ("bundle " ++ quoteStr b.name ++ " has invalid version " ++
              quoteStr p.versionStr ++ ": " ++ e)
          | .ok v =>
            if pkg = "" then
              match lookupV entries b.name with
              | some _ => .error ("duplicate bundle name " ++ quoteStr b.name)
              | none =>
                extractLoop bundles rest (entries ++ [(b.name, v)]) p.packageName
                  (pkgs ++ [newPackage p.packageName])
            else
              if p.packageName = pkg then
                match lookupV entries b.name with
                | some _ => .error ("duplicate bundle name " ++ quoteStr b.name)
                | none => extractLoop bundles rest (entries ++ [(b.name, v)]) pkg pkgs
              else
                .error ("bundle " ++ quoteStr p.packageName ++
                  " does not belong to this package: " ++ quoteStr pkg)
        | _ => .error ("bundle " ++ quoteStr b.name ++
            " has multiple \"olm.package\" properties, expected exactly 1")

/-- Go `getVersionsFromChannel` for one tier, starting from the current
package name and package records. -/
def getVersionsFromChannel (images : List String) (cfg : DeclCfg) (pkg : String)
    (pkgs : List Package) : Except String (VersionMap × String × List Package) :=
  extractLoop cfg.bundles images [] pkg pkgs

/-- Errors accumulated by the loop of Go `withoutBuildMetadataConflict`:
one error per bundle whose stripped version string was already seen. -/
def wbmcErrs : VersionMap → List String → List String
  | [], _ => []
  | (_, v) :: rest, seen =>
    if stripBuildMetadata v ∈ seen then
      ("bundle version " ++ quoteStr v.vString ++ " cannot be compared to " ++
        quoteStr (stripBuildMetadata v)) :: wbmcErrs rest seen
    else wbmcErrs rest (stripBuildMetadata v :: seen)

/-- Duplicate-free sublist keeping first occurrences, as the visited-set
behavior of the k8s error aggregate. -/
def dedupKeepFirst (seen : List String) : List String → List String
  | [] => []
  | e :: rest =>
    if e ∈ seen then dedupKeepFirst seen rest
    else e :: dedupKeepFirst (e :: seen) rest

/-- Message of a k8s `errors.NewAggregate` value: the single message when
there is one distinct error, otherwise the bracketed comma-joined distinct
messages. -/
def aggregateStr (errs : List String) : String :=
  match dedupKeepFirst [] errs with
  | [e] => e
  | es => "[" ++ String.intercalate ", " es ++ "]"

/-- Go `withoutBuildMetadataConflict`: detect bundle versions that differ
only by build metadata within one tier. -/
def withoutBuildMetadataConflict (m : VersionMap) : Except String Unit :=
  match wbmcErrs m [] with
  | [] => .ok ()
  | errs => .error ("encountered bundle versions which differ only by build metadata, " ++
      "which cannot be ordered: " ++ aggregateStr errs)

/-- Go `validateVersions`: an empty mapping is not an error. -/
def validateVersions (m : VersionMap) : Except String Unit :=
  if m = [] then .ok () else withoutBuildMetadataConflict m

/-- Go `getVersionsFromStandardChannels`: extract and validate the three
tiers in candidate, fast, stable order, threading the package name and
package records. -/
def getVersionsFromStandardChannels (sv : SemverTemplate) (cfg : DeclCfg) :
    Except String (BundleVersions × String × List Package) := do
  let (m1, pkg1, pkgs1) ← getVersionsFromChannel sv.candidateBundles cfg sv.pkg cfg.packages
  let _ ← validateVersions m1
  let (m2, pkg2, pkgs2) ← getVersionsFromChannel sv.fastBundles cfg pkg1 pkgs1
  let _ ← validateVersions m2
  let (m3, pkg3, pkgs3) ← getVersionsFromChannel sv.stableBundles cfg pkg2 pkgs2
  let _ ← validateVersions m3
  .ok (⟨m1, m2, m3⟩, pkg3, pkgs3)

/-- Go `buildBundleList` over the three tiers: the distinct bundle images
in first-occurrence order (the order stands for one possible enumeration
of the Go `bundleDict` set). -/
def bundleDictImages (sv : SemverTemplate) : List String :=
  dedupKeepFirst [] (sv.candidateBundles ++ sv.fastBundles ++ sv.stableBundles)

/-- Go `combineConfigs`: concatenation of rendered fragments. -/
def combineConfigs (cfgs : List DeclCfg) : DeclCfg :=
  { packages := cfgs.flatMap (·.packages)
    channels := cfgs.flatMap (·.channels)
    bundles := cfgs.flatMap (·.bundles) }

/-- Rendering loop of Go `Render`: render each distinct image through the
external renderer, aborting on the first error. -/
def renderAll (renderImage : String → Except String DeclCfg) :
    List String → Except String (List DeclCfg)
  | [] => .ok []
  | img :: rest =>
    match renderImage img with
    | .error e => .error e
    | .ok c =>
      match renderAll renderImage rest with
      | .error e => .error e
      | .ok cs => .ok (c :: cs)

/-- Go `Render` after the template has been loaded (the config loader is
external, spec §6): render all referenced images, reject an empty bundle
set, extract and validate versions, then synthesize and link channels and
set the default channel on the first package record.  `none` models the
two unguarded accesses Go would panic on: the last element of an empty
sorted placement list inside `linkChannels`, and `Packages[0]` on an empty
package list. -/
def renderTemplate (sv : SemverTemplate) (renderImage : String → Except String DeclCfg)
    (streamOrder : List StreamType) (chanOrder : List String) :
    Option (Except String DeclCfg) :=
  match renderAll renderImage (bundleDictImages sv) with
  | .error e => some (.error e)
  | .ok cfgs =>
    if (combineConfigs cfgs).bundles = [] then
      some (.error "render: no bundles specified or no bundles could be rendered")
    else
      match getVersionsFromStandardChannels sv (combineConfigs cfgs) with
      | .error e => some (.error ("render: unable to post-process bundle info: " ++ e))
      | .ok (bv, pkg', pkgs') =>
        match linkChannels (generateChannelsState { sv with pkg := pkg' } streamOrder bv).unlinked
            (generateChannelsState { sv with pkg := pkg' } streamOrder bv).edges chanOrder with
        | none => none
        | some channels =>
          match pkgs' with
          | [] => none
          | p0 :: prest =>
            some (.ok
              { packages :=
                  { p0 with defaultChannel :=
                      (generateChannelsState { sv with pkg := pkg' } streamOrder bv).hwc.name } ::
                    prest
                channels := channels
                bundles := (combineConfigs cfgs).bundles })

theorem foldlPreserve {σ α : Type _} (P : σ → Prop) (f : σ → α → σ)
    (hstep : ∀ s a, P s → P (f s a)) : ∀ (l : List α) (s : σ), P s → P (l.foldl f s)
  | [], _, h => h
  | a :: l, s, h => foldlPreserve P f hstep l (f s a) (hstep s a h)

theorem mem_updateChan {m : List (String × Channel)} {n : String} {f : Channel → Channel}
    {x : String × Channel} (h : x ∈ updateChan m n f) :
    x ∈ m ∨ ∃ y, y ∈ m ∧ x = (y.1, f y.2) := by
  induction m with
  | nil => simp [updateChan] at h
  | cons kc rest ih =>
    obtain ⟨k, c⟩ := kc
    unfold updateChan at h
    split at h
    · rcases List.mem_cons.mp h with h | h
      · exact Or.inr ⟨(k, c), by simp, h⟩
      · exact Or.inl (List.mem_cons_of_mem _ h)
    · rcases List.mem_cons.mp h with h | h
      · exact Or.inl (h ▸ List.mem_cons_self _ _)
      · rcases ih h with h | ⟨y, hy, hxy⟩
        · exact Or.inl (List.mem_cons_of_mem _ h)
        · exact Or.inr ⟨y, List.mem_cons_of_mem _ hy, hxy⟩

theorem mem_modifyIdx {l : List ChannelEntry} {i : Nat} {f : ChannelEntry → ChannelEntry}
    {e : ChannelEntry} (h : e ∈ modifyIdx l i f) :
    e ∈ l ∨ ∃ e', e' ∈ l ∧ e = f e' := by
  induction l generalizing i with
  | nil => simp [modifyIdx] at h
  | cons a rest ih =>
    cases i with
    | zero =>
      rcases List.mem_cons.mp h with h | h
      · exact Or.inr ⟨a, by simp, h⟩
      · exact Or.inl (List.mem_cons_of_mem _ h)
    | succ j =>
      rcases List.mem_cons.mp h with h | h
      · exact Or.inl (h ▸ List.mem_cons_self _ _)
      · rcases ih h with h | ⟨e', he', hee⟩
        · exact Or.inl (List.mem_cons_of_mem _ h)
        · exact Or.inr ⟨e', List.mem_cons_of_mem _ he', hee⟩

theorem lookupChan_mem {m : List (String × Channel)} {n : String} {c : Channel}
    (h : lookupChan m n = some c) : (n, c) ∈ m := by
  induction m with
  | nil => simp [lookupChan] at h
  | cons kc rest ih =>
    obtain ⟨k, c'⟩ := kc
    unfold lookupChan at h
    split at h
    · rename_i hk
      injection h with h
      rw [← hk, h]
      exact List.mem_cons_self _ _
    · exact List.mem_cons_of_mem _ (ih h)

theorem mem_strSortedList {s : List String} {x : String} :
    x ∈ strSortedList s ↔ x ∈ s :=
  (List.perm_insertionSort _ s).mem_iff

theorem mem_strInsert {s : List String} {x y : String} :
    x ∈ strInsert s y ↔ x = y ∨ x ∈ s := by
  unfold strInsert
  split
  · rename_i hy
    constructor
    · exact Or.inr
    · rintro (rfl | h)
      · exact hy
      · exact h
  · exact List.mem_cons

/-- Version with the given major, minor and patch numbers and no
prerelease or build metadata. -/
def relVersion (a b c : Nat) : Version :=
  { major := a, minor := b, patch := c }

/-- Tier mappings of the spec scenario: stable bundles a at 1.0.0, b at
1.0.1 and c at 1.1.0; candidate and fast empty. -/
def scenarioBV : BundleVersions :=
  ⟨[], [], [("a", relVersion 1 0 0), ("b", relVersion 1 0 1), ("c", relVersion 1 1 0)]⟩

/-- Minor-channels-only template of the spec scenario. -/
def scenarioSV : SemverTemplate :=
  { generateMajorChannels := false
    generateMinorChannels := true
    candidateBundles := []
    fastBundles := []
    stableBundles := []
    pkg := "pkg" }

/-- Output of channel synthesis plus linking on the spec scenario, with
the channel enumeration in creation order. -/
def scenarioOut : GenOut :=
  generateChannels scenarioSV [.major, .minor] ["stable-v1.0", "stable-v1.1"] scenarioBV

/-- Channel list the claim C1 asserts for the scenario: entry c would
carry no skips. -/
def scenarioClaimed : List Channel :=
  [{ schema := "olm.channel", name := "stable-v1.0", pkg := "pkg",
     entries := [{ name := "a" }, { name := "b", replaces := "", skips := ["a"] }] },
   { schema := "olm.channel", name := "stable-v1.1", pkg := "pkg",
     entries := [{ name := "c", replaces := "b", skips := [] }] }]

/-- Channel list the code actually produces for the scenario: entry c
carries skips ["a"], accumulated across the closed Y-stream. -/
def scenarioActual : List Channel :=
  [{ schema := "olm.channel", name := "stable-v1.0", pkg := "pkg",
     entries := [{ name := "a" }, { name := "b", replaces := "", skips := ["a"] }] },
   { schema := "olm.channel", name := "stable-v1.1", pkg := "pkg",
     entries := [{ name := "c", replaces := "b", skips := ["a"] }] }]

/-- Claim C1, counterexample: on tier=stable, minor channels only, bundles
a 1.0.0, b 1.0.1, c 1.1.0, the output is not the claimed channel list —
entry c of `stable-v1.1` carries skips ["a"], not an empty skips list. -/
theorem C1_counterexample :
    scenarioOut.channels ≠ some scenarioClaimed ∧
      scenarioOut.channels = some scenarioActual := by
  constructor
  · decide
  · decide

/-- Claim C1, amended: on tier=stable, minor channels only, bundles
a 1.0.0, b 1.0.1, c 1.1.0, the output contains exactly the channels
`stable-v1.0` with entries a (no edges) then b (replaces "", skips ["a"]),
and `stable-v1.1` with the single entry c having replaces "b" and skips
["a"]. -/
theorem C1_amended : scenarioOut.channels = some scenarioActual := by
  decide

/-- Store invariant: every entry of every stored channel has empty edges. -/
def CleanStore (m : List (String × Channel)) : Prop :=
  ∀ kc ∈ m, ∀ e ∈ kc.2.entries, e.replaces = "" ∧ e.skips = []

/-- Store invariant: no stored entry's skips list contains its own
replaces string. -/
def NoSelfSkip (m : List (String × Channel)) : Prop :=
  ∀ kc ∈ m, ∀ e ∈ kc.2.entries, e.replaces ∉ e.skips

theorem cleanStore_noSelfSkip {m : List (String × Channel)} (h : CleanStore m) :
    NoSelfSkip m := by
  intro kc hkc e he
  obtain ⟨h1, h2⟩ := h kc hkc e he
  rw [h1, h2]
  simp

theorem addEntryForKind_clean {pkg : String} {arch : ChannelArchetype} {bName : String}
    {v : Version} {st : GenState} {kind : StreamType} (h : CleanStore st.unlinked) :
    CleanStore (addEntryForKind pkg arch bName v st kind).unlinked := by
  unfold addEntryForKind
  cases hl : lookupChan st.unlinked (channelName kind arch v) <;> simp only
  · intro kc hkc e he
    rcases List.mem_append.mp hkc with hkc | hkc
    · exact h kc hkc e he
    · simp only [List.mem_singleton] at hkc
      subst hkc
      simp only [newChannel, List.mem_singleton] at he
      subst he
      exact ⟨rfl, rfl⟩
  · intro kc hkc e he
    rcases mem_updateChan hkc with hkc | ⟨y, hy, rfl⟩
    · exact h kc hkc e he
    · simp only at he
      rcases List.mem_append.mp he with he | he
      · exact h y hy e he
      · simp only [List.mem_singleton] at he
        subst he
        exact ⟨rfl, rfl⟩

theorem generateChannelsState_clean (sv : SemverTemplate) (streamOrder : List StreamType)
    (bv : BundleVersions) : CleanStore (generateChannelsState sv streamOrder bv).unlinked := by
  unfold generateChannelsState
  refine foldlPreserve (fun st : GenState => CleanStore st.unlinked) _ ?_ _ _ ?_
  · intro st arch h
    unfold processArchetype
    refine foldlPreserve (fun st : GenState => CleanStore st.unlinked) _ ?_ _ _ h
    intro st b h
    unfold addEntriesForBundle
    refine foldlPreserve (fun st : GenState => CleanStore st.unlinked) _ ?_ _ _ h
    intro st kind h
    exact addEntryForKind_clean h
  · intro kc hkc
    simp at hkc

theorem finalizeAt_noSelfSkip {m : List (String × Channel)} {t : EntryTuple}
    {z : String} {s : List String} (h : NoSelfSkip m) :
    NoSelfSkip (finalizeAt m t z s) := by
  intro kc hkc e he
  unfold finalizeAt at hkc
  rcases mem_updateChan hkc with hkc | ⟨y, hy, rfl⟩
  · exact h kc hkc e he
  · simp only at he
    rcases mem_modifyIdx he with he | ⟨e', _, rfl⟩
    · exact h y hy e he
    · simp only
      split

      · intro hc
        rw [mem_strSortedList] at hc
        have := List.of_mem_filter hc
        simp at this
      · rename_i hz
        intro hc
        rw [mem_strSortedList] at hc
        exact hz hc

theorem linkScanAll_noSelfSkip :
    ∀ (prev : EntryTuple) (rest : List EntryTuple) (st : LinkState),
      NoSelfSkip st.unlinked → NoSelfSkip (linkScanAll prev rest st)
  | _, [], st, h => finalizeAt_noSelfSkip h
  | prev, cur :: rest, st, h => by
    refine linkScanAll_noSelfSkip cur rest (linkStep prev cur st) ?_
    unfold linkStep
    simp only
    split <;> simp only <;> split
    · exact finalizeAt_noSelfSkip h
    · exact h
    · exact finalizeAt_noSelfSkip h
    · exact h

/-- Claim C8: for every template, enumeration oracle and tier mapping, in
every channel of the linked output no entry's skips list contains the
entry's own replaces target — whenever replaces is non-empty, that name is
absent from the skips list (the proof gives the stronger fact that even an
empty replaces string never occurs in skips). -/
theorem C8_skips_never_contain_replaces (sv : SemverTemplate)
    (streamOrder : List StreamType) (chanOrder : List String) (bv : BundleVersions)
    (chs : List Channel)
    (hout : (generateChannels sv streamOrder chanOrder bv).channels = some chs) :
    ∀ ch ∈ chs, ∀ e ∈ ch.entries, e.replaces ≠ "" → e.replaces ∉ e.skips := by
  intro ch hch e he _
  unfold generateChannels at hout
  simp only at hout
  unfold linkChannels at hout
  set st := generateChannelsState sv streamOrder bv with hst
  cases hs : sortEntries st.edges with
  | nil => rw [hs] at hout; exact absurd hout (by simp)
  | cons t rest =>
    rw [hs] at hout
    simp only [Option.some.injEq] at hout
    subst hout
    obtain ⟨n, _, hlook⟩ := List.mem_filterMap.mp hch
    have hmem := lookupChan_mem hlook
    have hfin : NoSelfSkip (linkScanAll t rest ⟨st.unlinked, "", []⟩) :=
      linkScanAll_noSelfSkip t rest _
        (cleanStore_noSelfSkip (generateChannelsState_clean sv streamOrder bv))
    exact hfin (n, ch) hmem e he

/-- Witness for claim C8 at the spec scenario: the entry c of channel
`stable-v1.1` replaces "b", and "b" is not among its skips. -/
theorem C8_witness :
    ("b" : String) ∉ (["a"] : List String) :=
  C8_skips_never_contain_replaces scenarioSV [.major, .minor]
    ["stable-v1.0", "stable-v1.1"] scenarioBV scenarioActual (by decide)
    { schema := "olm.channel", name := "stable-v1.1", pkg := "pkg",
      entries := [{ name := "c", replaces := "b", skips := ["a"] }] } (by decide)
    { name := "c", replaces := "b", skips := ["a"] } (by decide) (by decide)

/-- Template with both stream kinds enabled and no tier images, used to
exhibit the highwater tie between the major- and minor-named channel. -/
def bothKindsSV : SemverTemplate :=
  { generateMajorChannels := true
    generateMinorChannels := true
    candidateBundles := []
    fastBundles := []
    stableBundles := []
    pkg := "pkg" }

/-- Tier mappings with a single stable bundle a at 1.0.0. -/
def singleBundleBV : BundleVersions :=
  ⟨[], [], [("a", relVersion 1 0 0)]⟩

/-- Claim C4, counterexample: two runs of synthesis plus linking on the
same extracted mappings are not byte-identical — the channel list order
follows the unspecified channel-map enumeration order, and with both
stream kinds enabled the default channel name follows the unspecified
enumeration order of the per-bundle stream-kind map (a tie between
`stable-v1` and `stable-v1.0`). -/
theorem C4_counterexample :
    (generateChannels scenarioSV [.major, .minor] ["stable-v1.0", "stable-v1.1"]
        scenarioBV).channels ≠
      (generateChannels scenarioSV [.major, .minor] ["stable-v1.1", "stable-v1.0"]
        scenarioBV).channels ∧
    (generateChannels bothKindsSV [.major, .minor] ["stable-v1", "stable-v1.0"]
        singleBundleBV).defaultChannel ≠
      (generateChannels bothKindsSV [.minor, .major] ["stable-v1", "stable-v1.0"]
        singleBundleBV).defaultChannel := by
  constructor
  · decide
  · decide

/-- Claim C4, amended: re-running synthesis plus linking on the same
extracted mappings with the same flags and package yields the same
channels with the same entries, edges and default channel up to the order
of the channel list: for any two channel-map enumeration orders that
enumerate the same keys, the two outputs have permuted channel lists and
equal default channels (the per-bundle stream-kind enumeration being
fixed; with both stream kinds enabled, a highwater tie makes the default
channel name itself depend on that enumeration). -/
theorem C4_amended (sv : SemverTemplate) (streamOrder : List StreamType)
    (chanOrder1 chanOrder2 : List String) (bv : BundleVersions)
    (hperm : chanOrder1.Perm chanOrder2) :
    (generateChannels sv streamOrder chanOrder1 bv).defaultChannel =
      (generateChannels sv streamOrder chanOrder2 bv).defaultChannel ∧
    ∀ chs1 chs2,
      (generateChannels sv streamOrder chanOrder1 bv).channels = some chs1 →
      (generateChannels sv streamOrder chanOrder2 bv).channels = some chs2 →
      chs1.Perm chs2 := by
  constructor
  · rfl
  · intro chs1 chs2 h1 h2
    unfold generateChannels linkChannels at h1 h2
    simp only at h1 h2
    cases hs : sortEntries (generateChannelsState sv streamOrder bv).edges with
    | nil =>
      rw [hs] at h1
      exact absurd h1 (by simp)
    | cons t rest =>
      rw [hs] at h1 h2
      simp only [Option.some.injEq] at h1 h2
      subst h1
      subst h2
      exact hperm.filterMap _

/-- Witness for claim C4 at the spec scenario with the two creation-order
enumerations reversed relative to each other. -/
theorem C4_witness :
    (["stable-v1.0", "stable-v1.1"] : List String).Perm ["stable-v1.1", "stable-v1.0"] ∧
      scenarioActual.Perm
        [{ schema := "olm.channel", name := "stable-v1.1", pkg := "pkg",
           entries := [{ name := "c", replaces := "b", skips := ["a"] }] },
         { schema := "olm.channel", name := "stable-v1.0", pkg := "pkg",
           entries := [{ name := "a" }, { name := "b", replaces := "", skips := ["a"] }] }] := by
  refine ⟨by decide, ?_⟩
  exact (C4_amended scenarioSV [.major, .minor] ["stable-v1.0", "stable-v1.1"]
    ["stable-v1.1", "stable-v1.0"] scenarioBV (by decide)).2 _ _ (by decide) (by decide)

/-- Message produced by Go `withoutBuildMetadataConflict` on a conflict. -/
def wbmcMessage (m : VersionMap) : String :=
  "encountered bundle versions which differ only by build metadata, " ++
    "which cannot be ordered: " ++ aggregateStr (wbmcErrs m [])

theorem wbmcErrs_eq_nil : ∀ {m : VersionMap} {seen : List String},
    wbmcErrs m seen = [] →
      (m.map fun p => stripBuildMetadata p.2).Nodup ∧
        ∀ p ∈ m, stripBuildMetadata p.2 ∉ seen
  | [], _, _ => by simp
  | (n, v) :: rest, seen, h => by
    rw [wbmcErrs] at h
    split at h
    · exact absurd h (by simp)
    · rename_i hseen
      obtain ⟨hnd, hall⟩ := wbmcErrs_eq_nil h
      refine ⟨?_, ?_⟩
      · rw [List.map_cons, List.nodup_cons]
        refine ⟨?_, hnd⟩
        intro hc
        rw [List.mem_map] at hc
        obtain ⟨p, hp, hpe⟩ := hc
        exact hall p hp (by rw [hpe]; exact List.mem_cons_self _ _)
      · intro p hp
        rcases List.mem_cons.mp hp with rfl | hp
        · exact hseen
        · intro hc
          exact hall p hp (List.mem_cons_of_mem _ hc)

theorem validateVersions_error_of_conflict {m : VersionMap}
    (hcol : ¬ (m.map fun p => stripBuildMetadata p.2).Nodup) :
    validateVersions m = .error (wbmcMessage m) := by
  have hm : m ≠ [] := by
    intro hc
    subst hc
    simp at hcol
  unfold validateVersions
  rw [if_neg hm]
  unfold withoutBuildMetadataConflict
  cases he : wbmcErrs m [] with
  | nil => exact absurd (wbmcErrs_eq_nil he).1 hcol
  | cons e es =>
    unfold wbmcMessage
    rw [he]

/-- Version mapping with the spec scenario's build-metadata-only
collision: versions 1.0.0+build1 and 1.0.0+build2 on two bundles. -/
def collidingMap : VersionMap :=
  [("n1", { major := 1, minor := 0, patch := 0, build := ["build1"] }),
   ("n2", { major := 1, minor := 0, patch := 0, build := ["build2"] })]

set_option maxRecDepth 20000 in
/-- Claim C5, counterexample: for versions 1.0.0+build1 and 1.0.0+build2
in the same tier, validation fails, but the error message does not name
both offending version strings — it names only the later-seen full
version 1.0.0+build2 and the shared stripped string 1.0.0; the string
1.0.0+build1 does not occur in it. -/
theorem C5_counterexample :
    validateVersions collidingMap =
      .error ("encountered bundle versions which differ only by build metadata, " ++
        "which cannot be ordered: bundle version \"1.0.0+build2\" " ++
        "cannot be compared to \"1.0.0\"") ∧
    ¬ ("1.0.0+build1".data <:+:
        ("encountered bundle versions which differ only by build metadata, " ++
          "which cannot be ordered: bundle version \"1.0.0+build2\" " ++
          "cannot be compared to \"1.0.0\"").data) := by
  constructor
  · decide
  · decide

/-- Claim C5, amended: if two distinct bundles in the same tier have
versions equal after build metadata is stripped, validation fails with a
message naming the later-seen offending version and the shared stripped
version string, and when such a mapping is extracted for the candidate
tier the whole extraction step fails before any synthesis occurs. -/
theorem C5_amended (m : VersionMap)
    (hcol : ¬ (m.map fun p => stripBuildMetadata p.2).Nodup) :
    validateVersions m = .error (wbmcMessage m) ∧
    ∀ (sv : SemverTemplate) (cfg : DeclCfg) (p : String) (ps : List Package),
      getVersionsFromChannel sv.candidateBundles cfg sv.pkg cfg.packages = .ok (m, p, ps) →
      getVersionsFromStandardChannels sv cfg = .error (wbmcMessage m) := by
  have hval := validateVersions_error_of_conflict hcol
  refine ⟨hval, ?_⟩
  intro sv cfg p ps hext
  unfold getVersionsFromStandardChannels
  rw [hext]
  simp only [bind, Except.bind]
  rw [hval]

/-- Witness for claim C5 at the colliding scenario mapping, through a
template whose candidate tier extracts exactly that mapping. -/
theorem C5_witness :
    validateVersions collidingMap = .error (wbmcMessage collidingMap) ∧
    ∀ (cfg : DeclCfg) (p : String) (ps : List Package),
      getVersionsFromChannel
          ({ generateMajorChannels := false, generateMinorChannels := true,
             candidateBundles := ["i1", "i2"], fastBundles := [], stableBundles := [],
             pkg := "" } : SemverTemplate).candidateBundles cfg "" cfg.packages =
        .ok (collidingMap, p, ps) →
      getVersionsFromStandardChannels
        { generateMajorChannels := false, generateMinorChannels := true,
          candidateBundles := ["i1", "i2"], fastBundles := [], stableBundles := [],
          pkg := "" } cfg = .error (wbmcMessage collidingMap) := by
  have h := C5_amended collidingMap (by decide)
  exact ⟨h.1, fun cfg p ps hext => h.2 _ cfg p ps hext⟩

theorem lookupV_isSome_of_mem {m : VersionMap} {n : String} {v : Version}
    (h : (n, v) ∈ m) : ∃ v', lookupV m n = some v' := by
  induction m with
  | nil => simp at h
  | cons kv rest ih =>
    obtain ⟨k, w⟩ := kv
    unfold lookupV
    by_cases hk : k = n
    · exact ⟨w, by rw [if_pos hk]⟩
    · rcases List.mem_cons.mp h with he | he
      · injection he with h1 h2
        exact absurd h1.symm hk
      · rw [if_neg hk]
        exact ih he

theorem extractLoop_ok_cases {bundles : List RBundle} {img : String} {rest : List String}
    {entries : VersionMap} {pkg : String} {pkgs : List Package}
    {m : VersionMap} {p : String} {ps : List Package}
    (h : extractLoop bundles (img :: rest) entries pkg pkgs = .ok (m, p, ps)) :
    ∃ b prop v, findBundle bundles img = some b ∧ b.props = .ok [prop] ∧
      prop.parsed = .ok v ∧ lookupV entries b.name = none ∧
      ((pkg = "" ∧ extractLoop bundles rest (entries ++ [(b.name, v)]) prop.packageName
          (pkgs ++ [newPackage prop.packageName]) = .ok (m, p, ps)) ∨
        (¬ pkg = "" ∧ prop.packageName = pkg ∧
          extractLoop bundles rest (entries ++ [(b.name, v)]) pkg pkgs = .ok (m, p, ps))) := by
  rw [extractLoop] at h
  split at h
  · exact absurd h (by simp)
  · rename_i b hb
    split at h
    · exact absurd h (by simp)
    · rename_i props hp
      split at h
      · rename_i pstale prop
        split at h
        · exact absurd h (by simp)
        · rename_i v hv
          split at h
          · rename_i hpkg
            split at h
            · exact absurd h (by simp)
            · rename_i hdup
              exact ⟨b, prop, v, hb, hp, hv, hdup, Or.inl ⟨hpkg, h⟩⟩
          · rename_i hpkg
            split at h
            · rename_i hmatch
              split at h
              · exact absurd h (by simp)
              · rename_i hdup
                exact ⟨b, prop, v, hb, hp, hv, hdup, Or.inr ⟨hpkg, hmatch, h⟩⟩
            · exact absurd h (by simp)
      · exact absurd h (by simp)

theorem extractLoop_entries_mono : ∀ {bundles : List RBundle} {imgs : List String}
    {entries : VersionMap} {pkg : String} {pkgs : List Package}
    {m : VersionMap} {p : String} {ps : List Package},
    extractLoop bundles imgs entries pkg pkgs = .ok (m, p, ps) →
      ∃ suf, m = entries ++ suf
  | _, [], entries, _, _, _, _, _, h => by
    rw [extractLoop] at h
    injection h with h
    injection h with h1 h2
    exact ⟨[], by rw [← h1]; simp⟩
  | bundles, img :: rest, entries, pkg, pkgs, m, p, ps, h => by
    obtain ⟨b, prop, v, _, _, _, _, hrec⟩ := extractLoop_ok_cases h
    rcases hrec with ⟨_, hrec⟩ | ⟨_, _, hrec⟩ <;>
      obtain ⟨suf, hsuf⟩ := extractLoop_entries_mono hrec <;>
      exact ⟨(b.name, v) :: suf, by rw [hsuf]; simp⟩

theorem extractLoop_mem : ∀ {bundles : List RBundle} {imgs : List String} {img : String}
    {entries : VersionMap} {pkg : String} {pkgs : List Package}
    {m : VersionMap} {p : String} {ps : List Package},
    img ∈ imgs → extractLoop bundles imgs entries pkg pkgs = .ok (m, p, ps) →
      ∃ b, findBundle bundles img = some b ∧ ∃ v', lookupV m b.name = some v'
  | _, [], _, _, _, _, _, _, _, hmem, _ => by simp at hmem
  | bundles, i :: rest, img, entries, pkg, pkgs, m, p, ps, hmem, h => by
    obtain ⟨b, prop, v, hb, hprops, hv, hdup, hrec⟩ := extractLoop_ok_cases h
    rcases List.mem_cons.mp hmem with rfl | hmem
    · refine ⟨b, hb, ?_⟩
      have hmono : ∃ suf, m = (entries ++ [(b.name, v)]) ++ suf := by
        rcases hrec with ⟨_, hrec⟩ | ⟨_, _, hrec⟩ <;> exact extractLoop_entries_mono hrec
      obtain ⟨suf, rfl⟩ := hmono
      have hin : (b.name, v) ∈ entries ++ [(b.name, v)] ++ suf := by simp
      exact lookupV_isSome_of_mem hin
    · rcases hrec with ⟨_, hrec⟩ | ⟨_, _, hrec⟩ <;> exact extractLoop_mem hmem hrec

/-- Claim C10: duplicate-bundle detection is scoped to a single tier — if
the three per-tier extractions succeed in sequence, the combined
extraction succeeds with exactly those mappings (no additional cross-tier
duplicate check exists), and an image listed in both the fast and the
stable tier is resolved and recorded independently in both tiers'
mappings. -/
theorem C10_duplicate_scope (sv : SemverTemplate) (cfg : DeclCfg) (img : String)
    (m1 m2 m3 : VersionMap) (p1 p2 p3 : String) (ps1 ps2 ps3 : List Package)
    (h1 : getVersionsFromChannel sv.candidateBundles cfg sv.pkg cfg.packages = .ok (m1, p1, ps1))
    (hv1 : validateVersions m1 = .ok ())
    (h2 : getVersionsFromChannel sv.fastBundles cfg p1 ps1 = .ok (m2, p2, ps2))
    (hv2 : validateVersions m2 = .ok ())
    (h3 : getVersionsFromChannel sv.stableBundles cfg p2 ps2 = .ok (m3, p3, ps3))
    (hv3 : validateVersions m3 = .ok ())
    (hf : img ∈ sv.fastBundles) (hs : img ∈ sv.stableBundles) :
    getVersionsFromStandardChannels sv cfg = .ok (⟨m1, m2, m3⟩, p3, ps3) ∧
    ∃ b, findBundle cfg.bundles img = some b ∧
      (∃ v, lookupV m2 b.name = some v) ∧ ∃ v, lookupV m3 b.name = some v := by
  constructor
  · unfold getVersionsFromStandardChannels
    simp only [bind, Except.bind, h1, hv1, h2, hv2, h3, hv3]
  · obtain ⟨b, hb, hv⟩ := extractLoop_mem hf h2
    obtain ⟨b', hb', hv'⟩ := extractLoop_mem hs h3
    rw [hb] at hb'
    injection hb' with hb'
    exact ⟨b, hb, hv, hb' ▸ hv'⟩

/-- Rendered-bundle set for the C10 witness: one bundle x behind image i
with a single package property. -/
def sharedCfg : DeclCfg :=
  { packages := []
    channels := []
    bundles := [{ name := "x", image := "i",
                  props := .ok [{ packageName := "pkg", versionStr := "1.0.0",
                                  parsed := .ok (relVersion 1 0 0) }] }] }

/-- Template for the C10 witness: the same image i listed in both the fast
and the stable tier. -/
def sharedSV : SemverTemplate :=
  { generateMajorChannels := false
    generateMinorChannels := true
    candidateBundles := []
    fastBundles := ["i"]
    stableBundles := ["i"]
    pkg := "" }

/-- Witness for claim C10: the image i shared between the fast and stable
tiers extracts without error into both tier mappings. -/
theorem C10_witness :
    getVersionsFromStandardChannels sharedSV sharedCfg =
      .ok (⟨[], [("x", relVersion 1 0 0)], [("x", relVersion 1 0 0)]⟩, "pkg",
        [newPackage "pkg"]) ∧
    ∃ b, findBundle sharedCfg.bundles "i" = some b ∧
      (∃ v, lookupV [("x", relVersion 1 0 0)] b.name = some v) ∧
      ∃ v, lookupV [("x", relVersion 1 0 0)] b.name = some v :=
  C10_duplicate_scope sharedSV sharedCfg "i" [] [("x", relVersion 1 0 0)]
    [("x", relVersion 1 0 0)] "" "pkg" "pkg" [] [newPackage "pkg"] [newPackage "pkg"]
    (by decide) (by decide) (by decide) (by decide) (by decide) (by decide)
    (by decide) (by decide)

theorem extractLoop_nil_ok (bundles : List RBundle) (e : VersionMap) (p : String)
    (ps : List Package) : extractLoop bundles [] e p ps = .ok (e, p, ps) :=
  rfl

theorem extractLoop_pkgs_mono : ∀ {bundles : List RBundle} {imgs : List String}
    {entries : VersionMap} {pkg : String} {pkgs : List Package}
    {m : VersionMap} {p : String} {ps : List Package},
    extractLoop bundles imgs entries pkg pkgs = .ok (m, p, ps) →
      ∃ suf, ps = pkgs ++ suf
  | _, [], _, _, pkgs, _, _, _, h => by
    rw [extractLoop] at h
    injection h with h
    injection h with h1 h2
    injection h2 with h3 h4
    exact ⟨[], by rw [← h4]; simp⟩
  | bundles, img :: rest, entries, pkg, pkgs, m, p, ps, h => by
    obtain ⟨b, prop, v, _, _, _, _, hrec⟩ := extractLoop_ok_cases h
    rcases hrec with ⟨_, hrec⟩ | ⟨_, _, hrec⟩
    · obtain ⟨suf, hsuf⟩ := extractLoop_pkgs_mono hrec
      exact ⟨newPackage prop.packageName :: suf, by rw [hsuf]; simp⟩
    · obtain ⟨suf, hsuf⟩ := extractLoop_pkgs_mono hrec
      exact ⟨suf, hsuf⟩

theorem extractLoop_map_nonempty {bundles : List RBundle} {imgs : List String}
    {entries : VersionMap} {pkg : String} {pkgs : List Package}
    {m : VersionMap} {p : String} {ps : List Package}
    (hne : imgs ≠ []) (h : extractLoop bundles imgs entries pkg pkgs = .ok (m, p, ps)) :
    m ≠ [] := by
  cases imgs with
  | nil => exact absurd rfl hne
  | cons img rest =>
    obtain ⟨b, prop, v, _, _, _, _, hrec⟩ := extractLoop_ok_cases h
    have hmono : ∃ suf, m = (entries ++ [(b.name, v)]) ++ suf := by
      rcases hrec with ⟨_, hrec⟩ | ⟨_, _, hrec⟩ <;> exact extractLoop_entries_mono hrec
    obtain ⟨suf, rfl⟩ := hmono
    simp

theorem extractLoop_pkgs_nonempty {bundles : List RBundle} {imgs : List String}
    {entries : VersionMap} {pkgs : List Package}
    {m : VersionMap} {p : String} {ps : List Package}
    (hne : imgs ≠ []) (h : extractLoop bundles imgs entries "" pkgs = .ok (m, p, ps)) :
    ps ≠ [] := by
  cases imgs with
  | nil => exact absurd rfl hne
  | cons img rest =>
    obtain ⟨b, prop, v, _, _, _, _, hrec⟩ := extractLoop_ok_cases h
    rcases hrec with ⟨_, hrec⟩ | ⟨hne', _, _⟩
    · obtain ⟨suf, hsuf⟩ := extractLoop_pkgs_mono hrec
      rw [hsuf]
      simp
    · exact absurd rfl hne'

theorem standardChannels_inv {sv : SemverTemplate} {cfg : DeclCfg} {bv : BundleVersions}
    {pkg' : String} {pkgs' : List Package}
    (h : getVersionsFromStandardChannels sv cfg = .ok (bv, pkg', pkgs')) :
    ∃ p1 ps1 p2 ps2,
      getVersionsFromChannel sv.candidateBundles cfg sv.pkg cfg.packages =
        .ok (bv.candidate, p1, ps1) ∧
      getVersionsFromChannel sv.fastBundles cfg p1 ps1 = .ok (bv.fast, p2, ps2) ∧
      getVersionsFromChannel sv.stableBundles cfg p2 ps2 = .ok (bv.stable, pkg', pkgs') := by
  unfold getVersionsFromStandardChannels at h
  simp only [bind, Except.bind] at h
  split at h
  · exact absurd h (by simp)
  · rename_i r1 h1
    obtain ⟨m1, p1, ps1⟩ := r1
    split at h
    · exact absurd h (by simp)
    · split at h
      · exact absurd h (by simp)
      · rename_i r2 h2
        obtain ⟨m2, p2, ps2⟩ := r2
        split at h
        · exact absurd h (by simp)
        · split at h
          · exact absurd h (by simp)
          · rename_i r3 h3
            obtain ⟨m3, p3, ps3⟩ := r3
            split at h
            · exact absurd h (by simp)
            · injection h with h
              injection h with hbv h
              injection h with hp hps
              subst hbv
              subst hp
              subst hps
              exact ⟨p1, ps1, p2, ps2, h1, h2, h3⟩

theorem dedupKeepFirst_eq_nil {seen : List String} {l : List String}
    (h : dedupKeepFirst seen l = []) : ∀ x ∈ l, x ∈ seen := by
  induction l generalizing seen with
  | nil => simp
  | cons a rest ih =>
    rw [dedupKeepFirst] at h
    split at h
    · rename_i ha
      intro x hx
      rcases List.mem_cons.mp hx with rfl | hx
      · exact ha
      · exact ih h x hx
    · exact absurd h (by simp)

theorem addEntryForKind_edges_len (pkg : String) (arch : ChannelArchetype) (n : String)
    (v : Version) (st : GenState) (k : StreamType) :
    (addEntryForKind pkg arch n v st k).edges.length = st.edges.length + 1 := by
  unfold addEntryForKind
  split <;> simp

theorem foldl_kinds_edges_len (pkg : String) (arch : ChannelArchetype) (n : String)
    (v : Version) :
    ∀ (ks : List StreamType) (st : GenState),
      (ks.foldl (addEntryForKind pkg arch n v) st).edges.length =
        st.edges.length + ks.length
  | [], _ => rfl
  | k :: ks, st => by
    rw [List.foldl_cons, foldl_kinds_edges_len pkg arch n v ks, addEntryForKind_edges_len]
    simp only [List.length_cons]
    omega

theorem foldl_bundles_edges_len (pkg : String) (arch : ChannelArchetype)
    (kinds : List StreamType) :
    ∀ (l : VersionMap) (st : GenState),
      ((l.foldl (addEntriesForBundle pkg arch kinds) st).edges).length =
        st.edges.length + l.length * kinds.length
  | [], st => by simp
  | b :: l, st => by
    rw [List.foldl_cons, foldl_bundles_edges_len pkg arch kinds l]
    unfold addEntriesForBundle
    rw [foldl_kinds_edges_len]
    simp only [List.length_cons]
    ring

theorem generateChannelsState_edges_len (sv : SemverTemplate)
    (streamOrder : List StreamType) (bv : BundleVersions) :
    (generateChannelsState sv streamOrder bv).edges.length =
      (bv.candidate.length + bv.fast.length + bv.stable.length) *
        (enabledKinds sv streamOrder).length := by
  unfold generateChannelsState
  simp only [List.foldl_cons, List.foldl_nil]
  unfold processArchetype
  rw [foldl_bundles_edges_len, foldl_bundles_edges_len, foldl_bundles_edges_len]
  have hlen : ∀ m : VersionMap, (sortBundles m).length = m.length := fun m =>
    (List.perm_insertionSort _ m).length_eq
  rw [hlen, hlen, hlen]
  simp only [BundleVersions.get, List.length_nil]
  ring

theorem enabledKinds_ne_nil {sv : SemverTemplate} {streamOrder : List StreamType}
    (hflag : sv.generateMajorChannels = true ∨ sv.generateMinorChannels = true)
    (hso : StreamType.major ∈ streamOrder ∧ StreamType.minor ∈ streamOrder) :
    enabledKinds sv streamOrder ≠ [] := by
  intro hc
  unfold enabledKinds at hc
  rcases hflag with hflag | hflag
  · have : StreamType.major ∈ streamOrder.filter fun k =>
        match k with
        | .major => sv.generateMajorChannels
        | .minor => sv.generateMinorChannels :=
      List.mem_filter.mpr ⟨hso.1, hflag⟩
    rw [hc] at this
    simp at this
  · have : StreamType.minor ∈ streamOrder.filter fun k =>
        match k with
        | .major => sv.generateMajorChannels
        | .minor => sv.generateMinorChannels :=
      List.mem_filter.mpr ⟨hso.2, hflag⟩
    rw [hc] at this
    simp at this

/-- Claim C9: when at least one bundle was rendered (so the empty-result
check passes) and at least one stream flag is enabled, the placement list
is non-empty and the package list is non-empty, so the unguarded accesses
(`entries[len(entries)-1]` in `linkChannels` and `Packages[0]` in
`Render`, both modelled by the `none` result) are in bounds: the render
pipeline never takes the modelled out-of-range branch. -/
theorem C9_no_panic (sv : SemverTemplate) (renderImage : String → Except String DeclCfg)
    (streamOrder : List StreamType) (chanOrder : List String)
    (hpkg : sv.pkg = "")
    (hflag : sv.generateMajorChannels = true ∨ sv.generateMinorChannels = true)
    (hso : StreamType.major ∈ streamOrder ∧ StreamType.minor ∈ streamOrder) :
    renderTemplate sv renderImage streamOrder chanOrder ≠ none := by
  unfold renderTemplate
  split
  · simp
  · rename_i cfgs hcfgs
    split
    · simp
    · rename_i hbne
      split
      · simp
      · rename_i bv pkg' pkgs' hstd
        have himgs : bundleDictImages sv ≠ [] := by
          intro hc
          rw [hc] at hcfgs
          rw [renderAll] at hcfgs
          injection hcfgs with hcfgs
          rw [← hcfgs] at hbne
          exact hbne rfl
        have hlists : sv.candidateBundles ++ sv.fastBundles ++ sv.stableBundles ≠ [] := by
          intro hc
          refine himgs ?_
          unfold bundleDictImages
          rw [hc]
          rfl
        obtain ⟨p1, ps1, p2, ps2, h1, h2, h3⟩ := standardChannels_inv hstd
        unfold getVersionsFromChannel at h1 h2 h3
        rw [hpkg] at h1
        have htier : bv.candidate ≠ [] ∨ bv.fast ≠ [] ∨ bv.stable ≠ [] := by
          by_cases hc : sv.candidateBundles = []
          · by_cases hf : sv.fastBundles = []
            · have hs : sv.stableBundles ≠ [] := by
                intro hs
                exact hlists (by rw [hc, hf, hs]; rfl)
              exact Or.inr (Or.inr (extractLoop_map_nonempty hs h3))
            · exact Or.inr (Or.inl (extractLoop_map_nonempty hf h2))
          · exact Or.inl (extractLoop_map_nonempty hc h1)
        have hpkgs : pkgs' ≠ [] := by
          by_cases hc : sv.candidateBundles = []
          · rw [hc, extractLoop_nil_ok] at h1
            injection h1 with h1
            injection h1 with hm1 h1
            injection h1 with hp1 hps1
            by_cases hf : sv.fastBundles = []
            · rw [hf, ← hp1, ← hps1, extractLoop_nil_ok] at h2
              injection h2 with h2
              injection h2 with hm2 h2
              injection h2 with hp2 hps2
              have hs : sv.stableBundles ≠ [] := by
                intro hs
                exact hlists (by rw [hc, hf, hs]; rfl)
              rw [← hp2] at h3
              exact extractLoop_pkgs_nonempty hs h3
            · rw [← hp1] at h2
              have := extractLoop_pkgs_nonempty hf h2
              obtain ⟨suf, hsuf⟩ := extractLoop_pkgs_mono h3
              rw [hsuf]
              intro hz
              rcases List.append_eq_nil.mp hz with ⟨hz1, _⟩
              exact this hz1
          · have := extractLoop_pkgs_nonempty hc h1
            obtain ⟨suf2, hsuf2⟩ := extractLoop_pkgs_mono h2
            obtain ⟨suf3, hsuf3⟩ := extractLoop_pkgs_mono h3
            rw [hsuf3, hsuf2]
            intro hz
            rcases List.append_eq_nil.mp hz with ⟨hz1, _⟩
            rcases List.append_eq_nil.mp hz1 with ⟨hz2, _⟩
            exact this hz2
        have hedges : (generateChannelsState { sv with pkg := pkg' } streamOrder bv).edges ≠ [] := by
          intro hc
          have hlen := generateChannelsState_edges_len { sv with pkg := pkg' } streamOrder bv
          rw [hc] at hlen
          simp only [List.length_nil] at hlen
          have hkinds : enabledKinds { sv with pkg := pkg' } streamOrder ≠ [] :=
            enabledKinds_ne_nil hflag hso
          have hk : 0 < (enabledKinds { sv with pkg := pkg' } streamOrder).length :=
            List.length_pos.mpr hkinds
          have ht : 0 < bv.candidate.length + bv.fast.length + bv.stable.length := by
            rcases htier with ht | ht | ht
            · have hpos := List.length_pos.mpr ht
              omega
            · have hpos := List.length_pos.mpr ht
              omega
            · have hpos := List.length_pos.mpr ht
              omega
          have := Nat.mul_pos ht hk
          omega
        have hsorted : sortEntries (generateChannelsState { sv with pkg := pkg' }
            streamOrder bv).edges ≠ [] := by
          intro hc
          have := (List.perm_insertionSort (fun a b : EntryTuple => ¬ tupleLess b a)
            (generateChannelsState { sv with pkg := pkg' } streamOrder bv).edges).length_eq
          unfold sortEntries at hc
          rw [hc] at this
          simp only [List.length_nil] at this
          exact hedges (List.length_eq_zero.mp this.symm)
        have hlink : linkChannels
            (generateChannelsState { sv with pkg := pkg' } streamOrder bv).unlinked
            (generateChannelsState { sv with pkg := pkg' } streamOrder bv).edges chanOrder ≠
            none := by
          unfold linkChannels
          cases hsrt : sortEntries (generateChannelsState { sv with pkg := pkg' }
              streamOrder bv).edges with
          | nil => exact absurd hsrt hsorted
          | cons t rest => simp
        split
        · rename_i heq
          exact absurd heq hlink
        · cases pkgs' with
          | nil => exact absurd rfl hpkgs
          | cons p0 prest => simp

/-- Template for the C9 witness: one stable image, minor channels only,
no package name established yet. -/
def c9SV : SemverTemplate :=
  { generateMajorChannels := false
    generateMinorChannels := true
    candidateBundles := []
    fastBundles := []
    stableBundles := ["i"]
    pkg := "" }

/-- Renderer oracle for the C9 witness: every image resolves to the shared
one-bundle fragment. -/
def c9Render : String → Except String DeclCfg :=
  fun _ => .ok sharedCfg

/-- Witness for claim C9: on a concrete one-bundle template the render
pipeline does not take the modelled out-of-range branch. -/
theorem C9_witness :
    renderTemplate c9SV c9Render [.major, .minor] ["stable-v1.0"] ≠ none :=
  C9_no_panic c9SV c9Render [.major, .minor] ["stable-v1.0"] rfl (Or.inr rfl) (by decide)

theorem getMinorVersion_lt_iff {v w : Version} :
    (getMinorVersion v).lt (getMinorVersion w) ↔
      v.major < w.major ∨ (v.major = w.major ∧ v.minor < w.minor) := by
  rw [Version.lt_iff]
  unfold getMinorVersion
  simp [preTop]

theorem getMinorVersion_peq_iff {v w : Version} :
    (getMinorVersion v).peq (getMinorVersion w) ↔
      v.major = w.major ∧ v.minor = w.minor := by
  unfold Version.peq
  rw [Version.comp_eq_iff]
  unfold getMinorVersion
  simp

theorem getMajorVersion_peq_iff {v w : Version} :
    (getMajorVersion v).peq (getMajorVersion w) ↔ v.major = w.major := by
  unfold Version.peq
  rw [Version.comp_eq_iff]
  unfold getMajorVersion
  simp

theorem Version.lt_major_minor {v w : Version} (h : v.lt w) :
    v.major < w.major ∨ (v.major = w.major ∧ v.minor < w.minor) ∨
      (v.major = w.major ∧ v.minor = w.minor) := by
  rw [Version.lt_iff] at h
  rcases h with h | ⟨e, h⟩
  · exact Or.inl h
  · rcases h with h | ⟨f, _⟩
    · exact Or.inr (Or.inl ⟨e, h⟩)
    · exact Or.inr (Or.inr ⟨e, f⟩)

theorem Version.peq_major_minor {v w : Version} (h : v.peq w) :
    v.major = w.major ∧ v.minor = w.minor := by
  unfold Version.peq at h
  rw [Version.comp_eq_iff] at h
  exact ⟨h.1, h.2.1⟩

/-- Ordering-valued form of the `linkChannels` sort comparator. -/
def tupleComp (a b : EntryTuple) : Ordering :=
  (compare (channelPriorities a.arch) (channelPriorities b.arch)).then
    ((compare (streamTypePriorities a.kind) (streamTypePriorities b.kind)).then
      (a.version.comp b.version))

theorem tupleLess_iff_comp {a b : EntryTuple} : tupleLess a b ↔ tupleComp a b = .lt := by
  unfold tupleLess tupleComp
  rw [Ordering.then_eq_lt, Ordering.then_eq_lt,
    Nat.compare_eq_lt, Nat.compare_eq_lt, Nat.compare_eq_eq, Nat.compare_eq_eq]
  rfl

theorem tupleComp_swap (a b : EntryTuple) : (tupleComp a b).swap = tupleComp b a := by
  unfold tupleComp
  rw [Ordering.then_swap, Ordering.then_swap, Nat.compare_swap, Nat.compare_swap,
    Version.comp_swap]

theorem tupleLess_asymm {a b : EntryTuple} (h : tupleLess a b) : ¬ tupleLess b a := by
  rw [tupleLess_iff_comp] at h ⊢
  intro h2
  rw [← tupleComp_swap a b, h] at h2
  exact absurd h2 (by simp [Ordering.swap])

theorem tupleComp_eq_iff {a b : EntryTuple} :
    tupleComp a b = .eq ↔
      channelPriorities a.arch = channelPriorities b.arch ∧
        streamTypePriorities a.kind = streamTypePriorities b.kind ∧
        a.version.peq b.version := by
  unfold tupleComp
  rw [Ordering.then_eq_eq, Ordering.then_eq_eq, Nat.compare_eq_eq, Nat.compare_eq_eq]
  exact Iff.rfl

theorem tupleLess_trans {a b c : EntryTuple} (h1 : tupleLess a b) (h2 : tupleLess b c) :
    tupleLess a c := by
  unfold tupleLess at h1 h2 ⊢
  rcases h1 with h1 | ⟨e1, h1⟩
  · rcases h2 with h2 | ⟨e2, _⟩
    · exact Or.inl (Nat.lt_trans h1 h2)
    · exact Or.inl (e2 ▸ h1)
  · rcases h2 with h2 | ⟨e2, h2⟩
    · exact Or.inl (e1 ▸ h2)
    · refine Or.inr ⟨e1.trans e2, ?_⟩
      rcases h1 with h1 | ⟨f1, h1⟩
      · rcases h2 with h2 | ⟨f2, _⟩
        · exact Or.inl (Nat.lt_trans h1 h2)
        · exact Or.inl (f2 ▸ h1)
      · rcases h2 with h2 | ⟨f2, h2⟩
        · exact Or.inl (f1 ▸ h2)
        · exact Or.inr ⟨f1.trans f2, Version.lt_trans h1 h2⟩

theorem channelPriorities_inj {a b : ChannelArchetype}
    (h : channelPriorities a = channelPriorities b) : a = b := by
  cases a <;> cases b <;> simp_all [channelPriorities]

theorem streamTypePriorities_inj {a b : StreamType}
    (h : streamTypePriorities a = streamTypePriorities b) : a = b := by
  cases a <;> cases b <;> simp_all [streamTypePriorities]

theorem tupleLess_of_not_of_ne {a b : EntryTuple} (hn : ¬ tupleLess b a)
    (hne : a.arch = b.arch → a.kind = b.kind → ¬ a.version.peq b.version) :
    tupleLess a b := by
  by_cases harch : a.arch = b.arch
  · by_cases hkind : a.kind = b.kind
    · have hv : ¬ b.version.lt a.version := by
        intro hv
        exact hn (Or.inr ⟨by rw [harch], Or.inr ⟨by rw [hkind], hv⟩⟩)
      have hp : ¬ b.version.peq a.version := fun hp =>
        hne harch hkind (Version.peq_symm hp)
      exact Or.inr ⟨by rw [harch], Or.inr ⟨by rw [hkind],
        Version.lt_of_not_lt_of_not_peq hv hp⟩⟩
  -- kinds differ
    · have hk : ¬ streamTypePriorities b.kind < streamTypePriorities a.kind := by
        intro hk
        exact hn (Or.inr ⟨by rw [harch], Or.inl hk⟩)
      have hkne : streamTypePriorities a.kind ≠ streamTypePriorities b.kind :=
        fun he => hkind (streamTypePriorities_inj he)
      exact Or.inr ⟨by rw [harch], Or.inl (by omega)⟩
  · have ha : ¬ channelPriorities b.arch < channelPriorities a.arch := by
      intro ha
      exact hn (Or.inl ha)
    have hane : channelPriorities a.arch ≠ channelPriorities b.arch :=
      fun he => harch (channelPriorities_inj he)
    exact Or.inl (by omega)

instance : IsTotal EntryTuple (fun a b : EntryTuple => ¬ tupleLess b a) := by
  constructor
  intro a b
  by_cases h : tupleLess b a
  · exact Or.inr (tupleLess_asymm h)
  · exact Or.inl h

theorem Version.comp_congr_left {v w u : Version} (h : v.peq w) : v.comp u = w.comp u := by
  unfold Version.peq at h
  rw [Version.comp_eq_iff] at h
  obtain ⟨h1, h2, h3, h4⟩ := h
  unfold Version.comp
  rw [h1, h2, h3, h4]

theorem tupleComp_eq_lt_trans {a b c : EntryTuple} (h1 : tupleComp a b = .eq)
    (h2 : tupleComp b c = .lt) : tupleComp a c = .lt := by
  rw [tupleComp_eq_iff] at h1
  obtain ⟨e1, e2, e3⟩ := h1
  unfold tupleComp at h2 ⊢
  rw [e1, e2, Version.comp_congr_left e3]
  exact h2

theorem tupleComp_trichotomy (a b : EntryTuple) :
    tupleComp a b = .lt ∨ tupleComp a b = .eq ∨ tupleComp b a = .lt := by
  cases h : tupleComp a b
  · exact Or.inl rfl
  · exact Or.inr (Or.inl rfl)
  · refine Or.inr (Or.inr ?_)
    rw [← tupleComp_swap a b, h]
    rfl

instance : IsTrans EntryTuple (fun a b : EntryTuple => ¬ tupleLess b a) := by
  constructor
  intro a b c hab hbc hca
  rw [tupleLess_iff_comp] at hca
  rcases tupleComp_trichotomy c b with h | h | h
  · exact hbc (tupleLess_iff_comp.mpr h)
  · have : tupleComp b c = .eq := by
      rw [← tupleComp_swap c b, h]
      rfl
    exact hab (tupleLess_iff_comp.mpr (tupleComp_eq_lt_trans this hca))
  · exact hab (tupleLess_iff_comp.mpr
      (tupleLess_iff_comp.mp (tupleLess_trans (tupleLess_iff_comp.mpr h)
        (tupleLess_iff_comp.mpr hca))))

theorem Version.comp_congr_right {v w u : Version} (h : w.peq u) : v.comp w = v.comp u := by
  unfold Version.peq at h
  rw [Version.comp_eq_iff] at h
  obtain ⟨h1, h2, h3, h4⟩ := h
  unfold Version.comp
  rw [h1, h2, h3, h4]

theorem Version.lt_of_lt_of_peq {v w u : Version} (h1 : v.lt w) (h2 : w.peq u) : v.lt u := by
  unfold Version.lt at h1 ⊢
  rw [← Version.comp_congr_right h2]
  exact h1

theorem Version.lt_of_peq_of_lt {v w u : Version} (h1 : v.peq w) (h2 : w.lt u) : v.lt u := by
  unfold Version.lt at h2 ⊢
  rw [Version.comp_congr_left h1]
  exact h2

instance : IsTotal (String × Version) (fun a b : String × Version => ¬ b.2.lt a.2) := by
  constructor
  intro a b
  by_cases h : b.2.lt a.2
  · exact Or.inr (Version.lt_asymm h)
  · exact Or.inl h

instance : IsTrans (String × Version) (fun a b : String × Version => ¬ b.2.lt a.2) := by
  constructor
  intro a b c hab hbc hca
  rcases Version.trichotomy b.2 a.2 with h | h | h
  · exact hab h
  · exact hbc (Version.lt_of_lt_of_peq hca (Version.peq_symm h))
  · exact hbc (Version.lt_trans hca h)

theorem lookupChan_append (m : List (String × Channel)) (k : String) (c : Channel)
    (n : String) :
    lookupChan (m ++ [(k, c)]) n =
      match lookupChan m n with
      | some x => some x
      | none => if k = n then some c else none := by
  induction m with
  | nil => rfl
  | cons kc rest ih =>
    obtain ⟨k', c'⟩ := kc
    simp only [List.cons_append, lookupChan]
    by_cases hk : k' = n
    · rw [if_pos hk, if_pos hk]
    · rw [if_neg hk, if_neg hk]
      exact ih

theorem lookupChan_update (m : List (String × Channel)) (k : String)
    (f : Channel → Channel) (n : String) :
    lookupChan (updateChan m k f) n =
      if k = n then Option.map f (lookupChan m n) else lookupChan m n := by
  induction m with
  | nil =>
    simp only [updateChan, lookupChan]
    split <;> rfl
  | cons kc rest ih =>
    obtain ⟨k', c'⟩ := kc
    simp only [updateChan]
    by_cases hk : k' = k
    · rw [if_pos hk]
      simp only [lookupChan]
      by_cases hn : k' = n
      · rw [if_pos hn, if_pos hn, if_pos ((hk.symm.trans hn))]
        rfl
      · rw [if_neg hn, if_neg hn, if_neg (fun hc : k = n => hn (hk.trans hc))]
    · rw [if_neg hk]
      simp only [lookupChan]
      by_cases hn : k' = n
      · rw [if_pos hn, if_pos hn]
        by_cases hkn : k = n
        · exact absurd (hkn.trans hn.symm).symm hk
        · rw [if_neg hkn]
      · rw [if_neg hn, if_neg hn, ih]

theorem lookupChan_append_some {m : List (String × Channel)} {k : String} {c : Channel}
    {n : String} {x : Channel} (h : lookupChan m n = some x) :
    lookupChan (m ++ [(k, c)]) n = some x := by
  rw [lookupChan_append, h]

theorem lookupChan_append_none {m : List (String × Channel)} {k : String} {c : Channel}
    {n : String} (h : lookupChan m n = none) :
    lookupChan (m ++ [(k, c)]) n = if k = n then some c else none := by
  rw [lookupChan_append, h]

/-- Entry stored at a channel name and index. -/
def entryAt (m : List (String × Channel)) (cName : String) (i : Nat) : Option ChannelEntry :=
  match lookupChan m cName with
  | none => none
  | some ch => ch.entries[i]?

/-- Whether the tier mappings are valid: within each tier the bundle names
are distinct and no two versions are precedence-equal (the post-validation
state in which `generateChannels` runs). -/
def ValidBV (bv : BundleVersions) : Prop :=
  ∀ arch, ((bv.get arch).map (fun p => p.1)).Nodup ∧
    (bv.get arch).Pairwise (fun p q => ¬ p.2.peq q.2)

theorem lookupV_eq_of_nodup_mem {m : VersionMap} {n : String} {v : Version}
    (hn : (m.map (fun p => p.1)).Nodup) (h : (n, v) ∈ m) : lookupV m n = some v := by
  induction m with
  | nil => simp at h
  | cons kv rest ih =>
    obtain ⟨k, w⟩ := kv
    rw [List.map_cons, List.nodup_cons] at hn
    unfold lookupV
    rcases List.mem_cons.mp h with he | he
    · injection he with h1 h2
      rw [if_pos h1.symm, h2]
    · by_cases hk : k = n
      · exfalso
        refine hn.1 ?_
        rw [List.mem_map]
        exact ⟨(n, v), he, by rw [hk]⟩
      · rw [if_neg hk]
        exact ih hn.2 he

theorem lookupV_mem {m : VersionMap} {n : String} {v : Version}
    (h : lookupV m n = some v) : (n, v) ∈ m := by
  induction m with
  | nil => simp [lookupV] at h
  | cons kv rest ih =>
    obtain ⟨k, w⟩ := kv
    unfold lookupV at h
    split at h
    · rename_i hk
      injection h with h
      rw [← hk, h]
      exact List.mem_cons_self _ _
    · exact List.mem_cons_of_mem _ (ih h)

/-- Invariant of the synthesis state: placement tuples and stored channels
correspond slot by slot, tuples carry their channel name, tier and version
faithfully, slots and same-stream placements are pairwise distinct,
per-channel entries ascend in version, and the highwater marker dominates
every channel-creation event seen so far. -/
structure GenGood (bv : BundleVersions) (ks : List StreamType) (st : GenState) : Prop where
  corr : ∀ t ∈ st.edges, ∃ e, entryAt st.unlinked t.parent t.index = some e ∧ e.name = t.name
  surj : ∀ cN ch, lookupChan st.unlinked cN = some ch → ∀ i : Nat, i < ch.entries.length →
    ∃ t ∈ st.edges, t.parent = cN ∧ t.index = i
  parents : ∀ t ∈ st.edges, t.parent = channelName t.kind t.arch t.version
  tierMem : ∀ t ∈ st.edges, lookupV (bv.get t.arch) t.name = some t.version
  kindsMem : ∀ t ∈ st.edges, t.kind ∈ ks
  slotDist : st.edges.Pairwise (fun t t' => ¬ t.parent = t'.parent ∨ ¬ t.index = t'.index)
  groupDist : st.edges.Pairwise (fun t t' => t.arch = t'.arch → t.kind = t'.kind →
    ¬ t.version.peq t'.version ∧ ¬ t.name = t'.name)
  ascend : ∀ cN ch, lookupChan st.unlinked cN = some ch → ∀ i : Nat,
    i + 1 < ch.entries.length →
    ∃ t t', t ∈ st.edges ∧ t' ∈ st.edges ∧ t.parent = cN ∧ t.index = i ∧
      t'.parent = cN ∧ t'.index = i + 1 ∧ t.version.lt t'.version
  hwcUB : ∀ t ∈ st.edges, t.index = 0 →
    ¬ HighwaterChannel.hwGt ⟨t.arch, t.version, t.parent⟩ st.hwc
  hwcMem : st.hwc = initialHwc ∨
    ∃ t ∈ st.edges, t.index = 0 ∧ st.hwc = ⟨t.arch, t.version, t.parent⟩
  nonempty : ∀ cN ch, lookupChan st.unlinked cN = some ch → ch.entries ≠ []

theorem genGood_init (bv : BundleVersions) (ks : List StreamType) :
    GenGood bv ks ⟨initialHwc, [], []⟩ := by
  constructor <;> simp [lookupChan]

theorem hwGt_irrefl (h : HighwaterChannel) : ¬ h.hwGt h := by
  unfold HighwaterChannel.hwGt
  intro hc
  rcases hc with hc | ⟨_, hc⟩
  · omega
  · exact Version.lt_irrefl _ hc

theorem hwGt_asymm {g h : HighwaterChannel} (hgh : g.hwGt h) : ¬ h.hwGt g := by
  unfold HighwaterChannel.hwGt at hgh ⊢
  intro hc
  rcases hgh with hgh | ⟨e1, hgh⟩ <;> rcases hc with hc | ⟨e2, hc⟩
  · omega
  · omega
  · omega
  · exact Version.lt_asymm hgh hc

theorem hwNotGt_trans {a b c : HighwaterChannel} (hab : ¬ a.hwGt b) (hbc : ¬ b.hwGt c) :
    ¬ a.hwGt c := by
  unfold HighwaterChannel.hwGt at hab hbc ⊢
  intro hc
  rcases hc with hc | ⟨e, hc⟩
  · refine hab (Or.inl ?_)
    by_cases hcb : channelPriorities c.archetype < channelPriorities b.archetype
    · omega
    · by_cases hbb : channelPriorities b.archetype < channelPriorities a.archetype
      · omega
      · exfalso
        refine hbc ?_
        omega
  · by_cases hcb : channelPriorities c.archetype < channelPriorities b.archetype
    · exact hab (Or.inl (by omega))
    · by_cases hba : channelPriorities b.archetype = channelPriorities a.archetype
      · by_cases hcbe : channelPriorities b.archetype = channelPriorities c.archetype
        · rcases Version.trichotomy c.version b.version with hv | hv | hv
          · exact hbc (Or.inr ⟨by omega, hv⟩)
          · exact hab (Or.inr ⟨by omega, Version.lt_of_peq_of_lt (Version.peq_symm hv) hc⟩)
          · exact hab (Or.inr ⟨by omega, Version.lt_trans hv hc⟩)
        · exact hbc (Or.inl (by omega))
      · exact hab (Or.inl (by omega))

theorem channelName_inj {k1 k2 : StreamType} {a1 a2 : ChannelArchetype} {v1 v2 : Version}
    (h : channelName k1 a1 v1 = channelName k2 a2 v2) :
    k1 = k2 ∧ a1 = a2 ∧ v1.major = v2.major ∧
      (k1 = StreamType.minor → v1.minor = v2.minor) := by
  cases k1 <;> cases k2 <;> simp only [channelName] at h
  · obtain ⟨ha, hm⟩ := channelNameFromMajor_inj h
    exact ⟨rfl, ha, hm, by simp⟩
  · exact absurd h (channelNameFromMajor_ne_minor a1 a2 v1 v2)
  · exact absurd h.symm (channelNameFromMajor_ne_minor a2 a1 v2 v1)
  · obtain ⟨ha, hm, hn⟩ := channelNameFromMinor_inj h
    exact ⟨rfl, ha, hm, fun _ => hn⟩

theorem entryAt_eq_some {m : List (String × Channel)} {p : String} {i : Nat}
    {e : ChannelEntry} :
    entryAt m p i = some e ↔
      ∃ ch, lookupChan m p = some ch ∧ ch.entries[i]? = some e := by
  unfold entryAt
  cases h : lookupChan m p
  · simp
  · simp

theorem addEntryForKind_good {bv : BundleVersions} {ks : List StreamType} {st : GenState}
    {arch : ChannelArchetype} {b : String} {v : Version} {k : StreamType} {pkg : String}
    (hg : GenGood bv ks st)
    (H1 : lookupV (bv.get arch) b = some v)
    (H2 : k ∈ ks)
    (H3 : ∀ t ∈ st.edges, t.arch = arch →
      (t.version.lt v ∧ ¬ t.version.peq v ∧ ¬ t.name = b) ∨
      (t.version = v ∧ t.name = b ∧ ¬ t.kind = k)) :
    GenGood bv ks (addEntryForKind pkg arch b v st k) ∧
    ∃ i, (addEntryForKind pkg arch b v st k).edges =
      st.edges ++ [⟨arch, k, channelName k arch v, b, v, i⟩] := by
  have parent_key : ∀ t ∈ st.edges, ∃ ch', lookupChan st.unlinked t.parent = some ch' := by
    intro t ht
    obtain ⟨e, he, _⟩ := hg.corr t ht
    obtain ⟨ch', hc, _⟩ := entryAt_eq_some.mp he
    exact ⟨ch', hc⟩
  cases hl : lookupChan st.unlinked (channelName k arch v) with
  | none =>
    simp only [addEntryForKind, hl]
    refine ⟨?_, 0, rfl⟩
    constructor
    · -- corr
      intro t ht
      rcases List.mem_append.mp ht with ht | ht
      · obtain ⟨e, he, hn⟩ := hg.corr t ht
        obtain ⟨ch', hc, hget⟩ := entryAt_eq_some.mp he
        refine ⟨e, entryAt_eq_some.mpr ⟨ch', ?_, hget⟩, hn⟩
        rw [lookupChan_append, hc]
      · simp only [List.mem_singleton] at ht
        subst ht
        refine ⟨{ name := b }, entryAt_eq_some.mpr
          ⟨{ newChannel pkg (channelName k arch v) with entries := [{ name := b }] },
            ?_, ?_⟩, rfl⟩
        · rw [lookupChan_append, hl, if_pos rfl]
        · rfl
    · -- surj
      intro cN' ch' hlk i hi
      cases hold : lookupChan st.unlinked cN' with
      | some chold =>
        rw [lookupChan_append_some hold] at hlk
        injection hlk with hlk
        subst hlk
        obtain ⟨t, ht, h1, h2⟩ := hg.surj cN' chold hold i hi
        exact ⟨t, List.mem_append_left _ ht, h1, h2⟩
      | none =>
        rw [lookupChan_append_none hold] at hlk
        split at hlk
        · rename_i hcn
          injection hlk with hlk
          subst hlk
          have hi0 : i = 0 := by
            simp at hi
            omega
          subst hi0
          exact ⟨_, List.mem_append_right _ (List.mem_singleton_self _), hcn, rfl⟩
        · exact absurd hlk (by simp)
    · -- parents
      intro t ht
      rcases List.mem_append.mp ht with ht | ht
      · exact hg.parents t ht
      · simp only [List.mem_singleton] at ht
        subst ht
        rfl
    · -- tierMem
      intro t ht
      rcases List.mem_append.mp ht with ht | ht
      · exact hg.tierMem t ht
      · simp only [List.mem_singleton] at ht
        subst ht
        exact H1
    · -- kindsMem
      intro t ht
      rcases List.mem_append.mp ht with ht | ht
      · exact hg.kindsMem t ht
      · simp only [List.mem_singleton] at ht
        subst ht
        exact H2
    · -- slotDist
      rw [List.pairwise_append]
      refine ⟨hg.slotDist, List.pairwise_singleton _ _, ?_⟩
      intro t ht t' ht'
      simp only [List.mem_singleton] at ht'
      subst ht'
      refine Or.inl ?_
      intro hp
      obtain ⟨ch', hc⟩ := parent_key t ht
      rw [hp] at hc
      rw [hc] at hl
      exact absurd hl (by simp)
    · -- groupDist
      rw [List.pairwise_append]
      refine ⟨hg.groupDist, List.pairwise_singleton _ _, ?_⟩
      intro t ht t' ht'
      simp only [List.mem_singleton] at ht'
      subst ht'
      intro harch hkind
      rcases H3 t ht harch with ⟨_, hp, hn⟩ | ⟨_, _, hk⟩
      · exact ⟨hp, hn⟩
      · exact absurd hkind hk
    · -- ascend
      intro cN' ch' hlk i hi
      cases hold : lookupChan st.unlinked cN' with
      | some chold =>
        rw [lookupChan_append_some hold] at hlk
        injection hlk with hlk
        subst hlk
        obtain ⟨t, t', h1, h2, h3, h4, h5, h6, h7⟩ := hg.ascend cN' chold hold i hi
        exact ⟨t, t', List.mem_append_left _ h1, List.mem_append_left _ h2, h3, h4, h5, h6, h7⟩
      | none =>
        rw [lookupChan_append_none hold] at hlk
        split at hlk
        · injection hlk with hlk
          subst hlk
          simp at hi
        · exact absurd hlk (by simp)
    · -- hwcUB
      intro t ht hidx
      rcases List.mem_append.mp ht with ht | ht
      · refine hwNotGt_trans (hg.hwcUB t ht hidx) ?_
        split
        · rename_i hcond
          exact hwGt_asymm hcond
        · exact hwGt_irrefl _
      · simp only [List.mem_singleton] at ht
        subst ht
        split
        · exact hwGt_irrefl _
        · rename_i hcond
          exact hcond
    · -- hwcMem
      split
      · refine Or.inr ⟨_, List.mem_append_right _ (List.mem_singleton_self _), rfl, rfl⟩
      · rcases hg.hwcMem with hm | ⟨t, ht, hidx, hm⟩
        · exact Or.inl hm
        · exact Or.inr ⟨t, List.mem_append_left _ ht, hidx, hm⟩
    · -- nonempty
      intro cN' ch' hlk
      cases hold : lookupChan st.unlinked cN' with
      | some chold =>
        rw [lookupChan_append_some hold] at hlk
        injection hlk with hlk
        subst hlk
        exact hg.nonempty cN' chold hold
      | none =>
        rw [lookupChan_append_none hold] at hlk
        split at hlk
        · injection hlk with hlk
          subst hlk
          simp
        · exact absurd hlk (by simp)
  | some ch =>
    simp only [addEntryForKind, hl]
    refine ⟨?_, ch.entries.length, rfl⟩
    have hLpos : ch.entries ≠ [] := hg.nonempty _ ch hl
    have hidxlt : ∀ t ∈ st.edges, t.parent = channelName k arch v →
        t.index < ch.entries.length := by
      intro t ht hp
      obtain ⟨e, he, _⟩ := hg.corr t ht
      obtain ⟨ch', hc, hget⟩ := entryAt_eq_some.mp he
      rw [hp, hl] at hc
      injection hc with hc
      subst hc
      rw [List.getElem?_eq_some] at hget
      exact hget.1
    constructor
    · -- corr
      intro t ht0
      rcases List.mem_append.mp ht0 with ht | ht
      · obtain ⟨e, he, hn⟩ := hg.corr t ht
        obtain ⟨ch', hc, hget⟩ := entryAt_eq_some.mp he
        by_cases hcn : channelName k arch v = t.parent
        · have hch : ch' = ch := by
            rw [← hcn, hl] at hc
            injection hc with hc
            exact hc.symm
          subst hch
          refine ⟨e, entryAt_eq_some.mpr
            ⟨{ ch' with entries := ch'.entries ++ [{ name := b }] }, ?_, ?_⟩, hn⟩
          · rw [lookupChan_update, if_pos hcn, ← hcn, hl]
            rfl
          · simp only
            rw [List.getElem?_append_left (hidxlt t ht hcn.symm)]
            exact hget
        · refine ⟨e, entryAt_eq_some.mpr ⟨ch', ?_, hget⟩, hn⟩
          rw [lookupChan_update, if_neg hcn]
          exact hc
      · simp only [List.mem_singleton] at ht
        subst ht
        refine ⟨{ name := b }, entryAt_eq_some.mpr
          ⟨{ ch with entries := ch.entries ++ [{ name := b }] }, ?_, ?_⟩, rfl⟩
        · rw [lookupChan_update, if_pos rfl, hl]
          rfl
        · simp only
          exact List.getElem?_concat_length _ _
    · -- surj
      intro cN' ch' hlk i hi
      rw [lookupChan_update] at hlk
      split at hlk
      · rename_i hcn
        rw [← hcn, hl] at hlk
        injection hlk with hlk
        subst hlk
        simp only [List.length_append, List.length_cons, List.length_nil] at hi
        by_cases hiL : i < ch.entries.length
        · obtain ⟨t, ht, h1, h2⟩ := hg.surj _ ch hl i hiL
          exact ⟨t, List.mem_append_left _ ht, hcn ▸ h1, h2⟩
        · have : i = ch.entries.length := by omega
          subst this
          exact ⟨_, List.mem_append_right _ (List.mem_singleton_self _), hcn, rfl⟩
      · obtain ⟨t, ht, h1, h2⟩ := hg.surj cN' ch' hlk i hi
        exact ⟨t, List.mem_append_left _ ht, h1, h2⟩
    · -- parents
      intro t ht
      rcases List.mem_append.mp ht with ht | ht
      · exact hg.parents t ht
      · simp only [List.mem_singleton] at ht
        subst ht
        rfl
    · -- tierMem
      intro t ht
      rcases List.mem_append.mp ht with ht | ht
      · exact hg.tierMem t ht
      · simp only [List.mem_singleton] at ht
        subst ht
        exact H1
    · -- kindsMem
      intro t ht
      rcases List.mem_append.mp ht with ht | ht
      · exact hg.kindsMem t ht
      · simp only [List.mem_singleton] at ht
        subst ht
        exact H2
    · -- slotDist
      rw [List.pairwise_append]
      refine ⟨hg.slotDist, List.pairwise_singleton _ _, ?_⟩
      intro t ht t' ht'
      simp only [List.mem_singleton] at ht'
      subst ht'
      by_cases hp : t.parent = channelName k arch v
      · refine Or.inr ?_
        simp only
        have := hidxlt t ht hp
        omega
      · exact Or.inl hp
    · -- groupDist
      rw [List.pairwise_append]
      refine ⟨hg.groupDist, List.pairwise_singleton _ _, ?_⟩
      intro t ht t' ht'
      simp only [List.mem_singleton] at ht'
      subst ht'
      intro harch hkind
      rcases H3 t ht harch with ⟨_, hp, hn⟩ | ⟨_, _, hk⟩
      · exact ⟨hp, hn⟩
      · exact absurd hkind hk
    · -- ascend
      intro cN' ch' hlk i hi
      rw [lookupChan_update] at hlk
      split at hlk
      · rename_i hcn
        rw [← hcn, hl] at hlk
        injection hlk with hlk
        subst hlk
        simp only [List.length_append, List.length_cons, List.length_nil] at hi
        by_cases hiL : i + 1 < ch.entries.length
        · obtain ⟨t, t', h1, h2, h3, h4, h5, h6, h7⟩ := hg.ascend _ ch hl i hiL
          exact ⟨t, t', List.mem_append_left _ h1, List.mem_append_left _ h2,
            hcn ▸ h3, h4, hcn ▸ h5, h6, h7⟩
        · have hieq : i + 1 = ch.entries.length := by omega
          obtain ⟨t, ht, h1, h2⟩ := hg.surj _ ch hl i (by omega)
          refine ⟨t, ⟨arch, k, channelName k arch v, b, v, ch.entries.length⟩,
            List.mem_append_left _ ht,
            List.mem_append_right _ (List.mem_singleton_self _),
            hcn ▸ h1, h2, hcn, by rw [hieq], ?_⟩
          have hpar : t.parent = channelName k arch v := hcn ▸ h1
          have := hg.parents t ht
          rw [hpar] at this
          obtain ⟨hk', ha', _, _⟩ := channelName_inj this
          rcases H3 t ht ha'.symm with ⟨hlt, _, _⟩ | ⟨_, _, hk2⟩
          · exact hlt
          · exact absurd hk'.symm hk2
      · obtain ⟨t, t', h1, h2, h3, h4, h5, h6, h7⟩ := hg.ascend cN' ch' hlk i hi
        exact ⟨t, t', List.mem_append_left _ h1, List.mem_append_left _ h2,
          h3, h4, h5, h6, h7⟩
    · -- hwcUB
      intro t ht hidx
      rcases List.mem_append.mp ht with ht | ht
      · exact hg.hwcUB t ht hidx
      · simp only [List.mem_singleton] at ht
        subst ht
        simp only at hidx
        exact absurd (List.length_eq_zero.mp hidx) hLpos
    · -- hwcMem
      rcases hg.hwcMem with hm | ⟨t, ht, hidx, hm⟩
      · exact Or.inl hm
      · exact Or.inr ⟨t, List.mem_append_left _ ht, hidx, hm⟩
    · -- nonempty
      intro cN' ch' hlk
      rw [lookupChan_update] at hlk
      split at hlk
      · rename_i hcn
        rw [← hcn, hl] at hlk
        injection hlk with hlk
        subst hlk
        simp
      · exact hg.nonempty cN' ch' hlk

theorem foldKinds_good {bv : BundleVersions} {ks : List StreamType}
    {arch : ChannelArchetype} {b : String} {v : Version} {pkg : String} {stB : GenState}
    (H1 : lookupV (bv.get arch) b = some v)
    (BH : ∀ t ∈ stB.edges, t.arch = arch →
      t.version.lt v ∧ ¬ t.version.peq v ∧ ¬ t.name = b) :
    ∀ (krem kdone : List StreamType) (st : GenState),
      (∀ x ∈ krem, x ∈ ks) → (∀ x ∈ krem, x ∉ kdone) → krem.Nodup →
      GenGood bv ks st →
      (∀ t ∈ st.edges, t ∈ stB.edges ∨
        (t.arch = arch ∧ t.name = b ∧ t.version = v ∧ t.kind ∈ kdone)) →
      (∀ t ∈ stB.edges, t ∈ st.edges) →
      (∀ kd ∈ kdone, ∃ t ∈ st.edges,
        t.arch = arch ∧ t.kind = kd ∧ t.name = b ∧ t.version = v) →
      GenGood bv ks (krem.foldl (addEntryForKind pkg arch b v) st) ∧
      (∀ t ∈ (krem.foldl (addEntryForKind pkg arch b v) st).edges, t ∈ stB.edges ∨
        (t.arch = arch ∧ t.name = b ∧ t.version = v ∧ t.kind ∈ kdone ++ krem)) ∧
      (∀ t ∈ st.edges, t ∈ (krem.foldl (addEntryForKind pkg arch b v) st).edges) ∧
      (∀ kd ∈ kdone ++ krem, ∃ t ∈ (krem.foldl (addEntryForKind pkg arch b v) st).edges,
        t.arch = arch ∧ t.kind = kd ∧ t.name = b ∧ t.version = v)
  | [], kdone, st, _, _, _, hgood, hchar, hmono, hcomp => by
    refine ⟨hgood, ?_, fun t ht => ht, ?_⟩
    · intro t ht
      rcases hchar t ht with h | ⟨h1, h2, h3, h4⟩
      · exact Or.inl h
      · exact Or.inr ⟨h1, h2, h3, by simpa using h4⟩
    · intro kd hkd
      simp only [List.append_nil] at hkd
      exact hcomp kd hkd
  | k :: krem', kdone, st, hsub, hdisj, hnd, hgood, hchar, hmono, hcomp => by
    rw [List.foldl_cons]
    have H3 : ∀ t ∈ st.edges, t.arch = arch →
        (t.version.lt v ∧ ¬ t.version.peq v ∧ ¬ t.name = b) ∨
        (t.version = v ∧ t.name = b ∧ ¬ t.kind = k) := by
      intro t ht harch
      rcases hchar t ht with h | ⟨_, h2, h3, h4⟩
      · exact Or.inl (BH t h harch)
      · refine Or.inr ⟨h3, h2, ?_⟩
        intro hk
        exact hdisj k (List.mem_cons_self _ _) (hk ▸ h4)
    obtain ⟨hgood', i, hedges'⟩ := addEntryForKind_good hgood H1
      (hsub k (List.mem_cons_self _ _)) H3
    rw [List.nodup_cons] at hnd
    have hres := @foldKinds_good bv ks arch b v pkg stB H1 BH krem' (kdone ++ [k])
      (addEntryForKind pkg arch b v st k)
      (fun x hx => hsub x (List.mem_cons_of_mem _ hx))
      (by
        intro x hx hc
        rcases List.mem_append.mp hc with hc | hc
        · exact hdisj x (List.mem_cons_of_mem _ hx) hc
        · simp only [List.mem_singleton] at hc
          exact hnd.1 (hc ▸ hx))
      hnd.2 hgood'
      (by
        intro t ht
        rw [hedges'] at ht
        rcases List.mem_append.mp ht with ht | ht
        · rcases hchar t ht with h | ⟨h1, h2, h3, h4⟩
          · exact Or.inl h
          · exact Or.inr ⟨h1, h2, h3, List.mem_append_left _ h4⟩
        · simp only [List.mem_singleton] at ht
          subst ht
          exact Or.inr ⟨rfl, rfl, rfl, List.mem_append_right _ (List.mem_singleton_self _)⟩)
      (by
        intro t ht
        rw [hedges']
        exact List.mem_append_left _ (hmono t ht))
      (by
        intro kd hkd
        rcases List.mem_append.mp hkd with hkd | hkd
        · obtain ⟨t, ht, h⟩ := hcomp kd hkd
          exact ⟨t, by rw [hedges']; exact List.mem_append_left _ ht, h⟩
        · simp only [List.mem_singleton] at hkd
          subst hkd
          refine ⟨⟨arch, kd, channelName kd arch v, b, v, i⟩, ?_, rfl, rfl, rfl, rfl⟩
          rw [hedges']
          exact List.mem_append_right _ (List.mem_singleton_self _))
    obtain ⟨hg1, hg2, hg3, hg4⟩ := hres
    refine ⟨hg1, ?_, ?_, ?_⟩
    · intro t ht
      rcases hg2 t ht with h | ⟨h1, h2, h3, h4⟩
      · exact Or.inl h
      · refine Or.inr ⟨h1, h2, h3, ?_⟩
        rw [List.append_assoc] at h4
        simpa using h4
    · intro t ht
      refine hg3 t ?_
      rw [hedges']
      exact List.mem_append_left _ ht
    · intro kd hkd
      refine hg4 kd ?_
      rw [List.append_assoc]
      simpa using hkd

theorem foldBundles_good {bv : BundleVersions} {ks : List StreamType}
    {arch : ChannelArchetype} {pkg : String} {st0 : GenState} {sortedL : VersionMap}
    (hks : ks.Nodup)
    (hsorted : sortedL.Pairwise (fun p q : String × Version => ¬ q.2.lt p.2))
    (hpair : sortedL.Pairwise (fun p q : String × Version => ¬ p.2.peq q.2))
    (hnodup : (sortedL.map (fun p => p.1)).Nodup)
    (hmem : ∀ p ∈ sortedL, lookupV (bv.get arch) p.1 = some p.2)
    (h0 : ∀ t ∈ st0.edges, ¬ t.arch = arch) :
    ∀ (rem done : VersionMap) (st : GenState),
      done ++ rem = sortedL →
      GenGood bv ks st →
      (∀ t ∈ st.edges, t ∈ st0.edges ∨ (t.arch = arch ∧ (t.name, t.version) ∈ done)) →
      (∀ t ∈ st0.edges, t ∈ st.edges) →
      (∀ p ∈ done, ∀ kd ∈ ks, ∃ t ∈ st.edges,
        t.arch = arch ∧ t.kind = kd ∧ t.name = p.1 ∧ t.version = p.2) →
      GenGood bv ks (rem.foldl (addEntriesForBundle pkg arch ks) st) ∧
      (∀ t ∈ (rem.foldl (addEntriesForBundle pkg arch ks) st).edges,
        t ∈ st0.edges ∨ (t.arch = arch ∧ (t.name, t.version) ∈ sortedL)) ∧
      (∀ t ∈ st.edges, t ∈ (rem.foldl (addEntriesForBundle pkg arch ks) st).edges) ∧
      (∀ p ∈ sortedL, ∀ kd ∈ ks, ∃ t ∈ (rem.foldl (addEntriesForBundle pkg arch ks) st).edges,
        t.arch = arch ∧ t.kind = kd ∧ t.name = p.1 ∧ t.version = p.2)
  | [], done, st, hsplit, hgood, hchar, hmono, hcomp => by
    rw [List.append_nil] at hsplit
    subst hsplit
    refine ⟨hgood, hchar, fun t ht => ht, hcomp⟩
  | (b, v) :: rem', done, st, hsplit, hgood, hchar, hmono, hcomp => by
    rw [List.foldl_cons]
    have hbv_mem : (b, v) ∈ sortedL := by
      rw [← hsplit]
      exact List.mem_append_right _ (List.mem_cons_self _ _)
    have hcross : ∀ p ∈ done, ∀ q ∈ (b, v) :: rem',
        ¬ q.2.lt p.2 ∧ ¬ p.2.peq q.2 ∧ ¬ p.1 = q.1 := by
      intro p hp q hq
      refine ⟨?_, ?_, ?_⟩
      · have := (List.pairwise_append.mp (hsplit ▸ hsorted)).2.2
        exact this p hp q hq
      · have := (List.pairwise_append.mp (hsplit ▸ hpair)).2.2
        exact this p hp q hq
      · have hnd := hsplit ▸ hnodup
        rw [List.map_append, List.nodup_append] at hnd
        intro hc
        refine hnd.2.2 (List.mem_map.mpr ⟨p, hp, rfl⟩) ?_
        rw [hc]
        exact List.mem_map.mpr ⟨q, hq, rfl⟩
    have BH : ∀ t ∈ st.edges, t.arch = arch →
        t.version.lt v ∧ ¬ t.version.peq v ∧ ¬ t.name = b := by
      intro t ht harch
      rcases hchar t ht with h | ⟨_, h2⟩
      · exact absurd harch (h0 t h)
      · obtain ⟨hq1, hq2, hq3⟩ := hcross (t.name, t.version) h2 (b, v)
          (List.mem_cons_self _ _)
        refine ⟨?_, hq2, hq3⟩
        exact Version.lt_of_not_lt_of_not_peq hq1 (fun hp => hq2 (Version.peq_symm hp))
    have H1 : lookupV (bv.get arch) b = some v := hmem (b, v) hbv_mem
    have hkin := @foldKinds_good bv ks arch b v pkg st H1 BH ks [] st
      (fun x hx => hx) (by simp) hks hgood (fun t ht => Or.inl ht) (fun t ht => ht)
      (by simp)
    obtain ⟨hk1, hk2, hk3, hk4⟩ := hkin
    have hres := @foldBundles_good bv ks arch pkg st0 sortedL hks hsorted hpair hnodup hmem h0
      rem' (done ++ [(b, v)])
      (addEntriesForBundle pkg arch ks st (b, v))
      (by rw [← hsplit, List.append_assoc]; rfl)
      hk1
      (by
        intro t ht
        rcases hk2 t ht with h | ⟨h1, h2, h3, _⟩
        · rcases hchar t h with h' | ⟨h1', h2'⟩
          · exact Or.inl h'
          · exact Or.inr ⟨h1', List.mem_append_left _ h2'⟩
        · refine Or.inr ⟨h1, ?_⟩
          rw [h2, h3]
          exact List.mem_append_right _ (List.mem_singleton_self _))
      (by
        intro t ht
        exact hk3 t (hmono t ht))
      (by
        intro p hp kd hkd
        rcases List.mem_append.mp hp with hp | hp
        · obtain ⟨t, ht, h⟩ := hcomp p hp kd hkd
          exact ⟨t, hk3 t ht, h⟩
        · simp only [List.mem_singleton] at hp
          subst hp
          obtain ⟨t, ht, h1, h2, h3, h4⟩ := hk4 kd (by simpa using hkd)
          exact ⟨t, ht, h1, h2, h3, h4⟩)
    exact ⟨hres.1, hres.2.1, fun t ht => hres.2.2.1 t (hk3 t ht), hres.2.2.2⟩

theorem processArchetype_good {bv : BundleVersions} {ks : List StreamType}
    {arch : ChannelArchetype} {pkg : String} {st0 : GenState}
    (hv : ValidBV bv) (hks : ks.Nodup)
    (hgood : GenGood bv ks st0)
    (h0 : ∀ t ∈ st0.edges, ¬ t.arch = arch) :
    GenGood bv ks (processArchetype pkg ks st0 arch (bv.get arch)) ∧
    (∀ t ∈ (processArchetype pkg ks st0 arch (bv.get arch)).edges,
      t ∈ st0.edges ∨ t.arch = arch) ∧
    (∀ t ∈ st0.edges, t ∈ (processArchetype pkg ks st0 arch (bv.get arch)).edges) ∧
    (∀ p ∈ bv.get arch, ∀ kd ∈ ks,
      ∃ t ∈ (processArchetype pkg ks st0 arch (bv.get arch)).edges,
        t.arch = arch ∧ t.kind = kd ∧ t.name = p.1 ∧ t.version = p.2) := by
  have hperm : List.Perm (sortBundles (bv.get arch)) (bv.get arch) :=
    List.perm_insertionSort _ _
  have hsorted : (sortBundles (bv.get arch)).Pairwise
      (fun p q : String × Version => ¬ q.2.lt p.2) :=
    List.sorted_insertionSort _ _
  have hpair : (sortBundles (bv.get arch)).Pairwise
      (fun p q : String × Version => ¬ p.2.peq q.2) := by
    have hsym : Symmetric (fun p q : String × Version => ¬ p.2.peq q.2) := by
      intro p q h hc
      exact h (Version.peq_symm hc)
    exact (hperm.pairwise_iff (fun hxy => hsym hxy)).mpr (hv arch).2
  have hnodup : ((sortBundles (bv.get arch)).map (fun p => p.1)).Nodup :=
    ((hperm.map _).nodup_iff).mpr (hv arch).1
  have hmem : ∀ p ∈ sortBundles (bv.get arch), lookupV (bv.get arch) p.1 = some p.2 := by
    intro p hp
    have : p ∈ bv.get arch := hperm.mem_iff.mp hp
    obtain ⟨n, v⟩ := p
    exact lookupV_eq_of_nodup_mem (hv arch).1 this
  have hres := @foldBundles_good bv ks arch pkg st0 (sortBundles (bv.get arch))
    hks hsorted hpair hnodup hmem h0 (sortBundles (bv.get arch)) [] st0
    rfl hgood (fun t ht => Or.inl ht) (fun t ht => ht) (by simp)
  refine ⟨hres.1, ?_, hres.2.2.1, ?_⟩
  · intro t ht
    rcases hres.2.1 t ht with h | ⟨h1, _⟩
    · exact Or.inl h
    · exact Or.inr h1
  · intro p hp kd hkd
    exact hres.2.2.2 p (hperm.mem_iff.mpr hp) kd hkd

theorem generateChannelsState_master (sv : SemverTemplate) (streamOrder : List StreamType)
    (bv : BundleVersions) (hv : ValidBV bv) (hnd : streamOrder.Nodup) :
    GenGood bv (enabledKinds sv streamOrder) (generateChannelsState sv streamOrder bv) ∧
    ∀ arch, ∀ p ∈ bv.get arch, ∀ k ∈ enabledKinds sv streamOrder,
      ∃ t ∈ (generateChannelsState sv streamOrder bv).edges,
        t.arch = arch ∧ t.kind = k ∧ t.name = p.1 ∧ t.version = p.2 := by
  have hks : (enabledKinds sv streamOrder).Nodup := List.Nodup.filter _ hnd
  unfold generateChannelsState
  simp only [List.foldl_cons, List.foldl_nil]
  unfold processArchetype
  have h1 := @processArchetype_good bv (enabledKinds sv streamOrder) ChannelArchetype.candidate
    sv.pkg ⟨initialHwc, [], []⟩ hv hks (genGood_init bv _) (by simp)
  set st1 := processArchetype sv.pkg (enabledKinds sv streamOrder)
    ⟨initialHwc, [], []⟩ ChannelArchetype.candidate (bv.get ChannelArchetype.candidate) with hst1
  have harch1 : ∀ t ∈ st1.edges, t.arch = ChannelArchetype.candidate := by
    intro t ht
    rcases h1.2.1 t ht with h | h
    · simp at h
    · exact h
  have h2 := @processArchetype_good bv (enabledKinds sv streamOrder) ChannelArchetype.fast
    sv.pkg st1 hv hks h1.1
    (by
      intro t ht hc
      have := harch1 t ht
      rw [hc] at this
      exact absurd this (by simp))
  set st2 := processArchetype sv.pkg (enabledKinds sv streamOrder) st1 ChannelArchetype.fast
    (bv.get ChannelArchetype.fast) with hst2
  have harch2 : ∀ t ∈ st2.edges,
      t.arch = ChannelArchetype.candidate ∨ t.arch = ChannelArchetype.fast := by
    intro t ht
    rcases h2.2.1 t ht with h | h
    · exact Or.inl (harch1 t h)
    · exact Or.inr h
  have h3 := @processArchetype_good bv (enabledKinds sv streamOrder) ChannelArchetype.stable
    sv.pkg st2 hv hks h2.1
    (by
      intro t ht hc
      rcases harch2 t ht with h | h <;> rw [hc] at h <;> exact absurd h (by simp))
  refine ⟨h3.1, ?_⟩
  intro arch p hp k hk
  cases arch with
  | candidate =>
    obtain ⟨t, ht, hfacts⟩ := h1.2.2.2 p hp k hk
    exact ⟨t, h3.2.2.1 t (h2.2.2.1 t ht), hfacts⟩
  | fast =>
    obtain ⟨t, ht, hfacts⟩ := h2.2.2.2 p hp k hk
    exact ⟨t, h3.2.2.1 t ht, hfacts⟩
  | stable =>
    exact h3.2.2.2 p hp k hk

theorem length_modifyIdx : ∀ (l : List ChannelEntry) (i : Nat) (f : ChannelEntry → ChannelEntry),
    (modifyIdx l i f).length = l.length
  | [], _, _ => rfl
  | _ :: rest, 0, f => rfl
  | _ :: rest, i + 1, f => by
    simp only [modifyIdx, List.length_cons, length_modifyIdx rest i f]

theorem modifyIdx_getElem? :
    ∀ (l : List ChannelEntry) (i : Nat) (f : ChannelEntry → ChannelEntry) (j : Nat),
      (modifyIdx l i f)[j]? = if i = j then (l[j]?).map f else l[j]?
  | [], i, f, j => by
    simp [modifyIdx]
  | a :: rest, 0, f, 0 => by
    simp [modifyIdx]
  | a :: rest, 0, f, j + 1 => by
    simp [modifyIdx]
  | a :: rest, i + 1, f, 0 => by
    simp [modifyIdx]
  | a :: rest, i + 1, f, j + 1 => by
    simp only [modifyIdx, List.getElem?_cons_succ, modifyIdx_getElem? rest i f j,
      Nat.add_right_cancel_iff]

theorem map_name_modifyIdx {f : ChannelEntry → ChannelEntry}
    (hf : ∀ e, (f e).name = e.name) :
    ∀ (l : List ChannelEntry) (i : Nat),
      (modifyIdx l i f).map (fun e => e.name) = l.map (fun e => e.name)
  | [], _ => rfl
  | a :: rest, 0 => by
    simp only [modifyIdx, List.map_cons, hf a]
  | a :: rest, i + 1 => by
    simp only [modifyIdx, List.map_cons, map_name_modifyIdx hf rest i]

/-- Entry rewrite performed by Go `linkChannels` when finalizing an edge. -/
def finalizeEntry (z : String) (s : List String) (e : ChannelEntry) : ChannelEntry :=
  { e with
    replaces := z
    skips := if z ∈ s then strSortedList (s.filter fun x => ¬ x = z) else strSortedList s }

theorem finalizeAt_eq (m : List (String × Channel)) (t : EntryTuple) (z : String)
    (s : List String) :
    finalizeAt m t z s = updateChan m t.parent fun ch =>
      { ch with entries := modifyIdx ch.entries t.index (finalizeEntry z s) } := rfl

theorem entryAt_finalizeAt (m : List (String × Channel)) (t : EntryTuple) (z : String)
    (s : List String) (cN : String) (j : Nat) :
    entryAt (finalizeAt m t z s) cN j =
      if t.parent = cN ∧ t.index = j then (entryAt m cN j).map (finalizeEntry z s)
      else entryAt m cN j := by
  rw [finalizeAt_eq]
  unfold entryAt
  rw [lookupChan_update]
  by_cases hp : t.parent = cN
  · rw [if_pos hp]
    by_cases hi : t.index = j
    · rw [if_pos (⟨hp, hi⟩ : t.parent = cN ∧ t.index = j)]
      cases h : lookupChan m cN
      · rfl
      · rename_i ch
        show (modifyIdx ch.entries t.index (finalizeEntry z s))[j]? =
          (ch.entries[j]?).map (finalizeEntry z s)
        rw [modifyIdx_getElem?, if_pos hi]
    · rw [if_neg (fun hc : t.parent = cN ∧ t.index = j => hi hc.2)]
      cases h : lookupChan m cN
      · rfl
      · rename_i ch
        show (modifyIdx ch.entries t.index (finalizeEntry z s))[j]? = ch.entries[j]?
        rw [modifyIdx_getElem?, if_neg hi]
  · rw [if_neg hp, if_neg (fun hc : t.parent = cN ∧ t.index = j => hp hc.1)]

/-- Observable shape of a stored channel: everything except the entries'
replaces and skips fields. -/
def chanShape (c : Channel) : String × String × String × List String :=
  (c.schema, c.name, c.pkg, c.entries.map fun e => e.name)

/-- Two channel stores agree on every channel's shape. -/
def sameShape (m m' : List (String × Channel)) : Prop :=
  ∀ cN, Option.map chanShape (lookupChan m' cN) = Option.map chanShape (lookupChan m cN)

theorem sameShape_refl (m : List (String × Channel)) : sameShape m m := fun _ => rfl

theorem sameShape_trans {m m' m'' : List (String × Channel)} (h1 : sameShape m m')
    (h2 : sameShape m' m'') : sameShape m m'' := fun cN => (h2 cN).trans (h1 cN)

theorem sameShape_finalizeAt (m : List (String × Channel)) (t : EntryTuple) (z : String)
    (s : List String) : sameShape m (finalizeAt m t z s) := by
  intro cN
  rw [finalizeAt_eq, lookupChan_update]
  by_cases hp : t.parent = cN
  · rw [if_pos hp]
    cases h : lookupChan m cN
    · rfl
    · rename_i ch
      show some (chanShape
          { ch with entries := modifyIdx ch.entries t.index (finalizeEntry z s) }) =
        some (chanShape ch)
      unfold chanShape
      simp only [Option.some.injEq, Prod.mk.injEq]
      exact ⟨trivial, trivial, trivial,
        @map_name_modifyIdx (finalizeEntry z s) (fun e => rfl) ch.entries t.index⟩
  · rw [if_neg hp]

/-- Group boundary between two adjacent sorted placement tuples: any change
of tier, stream kind, major group or minor group, which is exactly the
condition under which `linkChannels` finalizes the earlier tuple's edge. -/
def boundary (p c : EntryTuple) : Prop :=
  ¬ p.arch = c.arch ∨ ¬ p.kind = c.kind ∨
    ¬ (getMajorVersion p.version).peq (getMajorVersion c.version) ∨
    ¬ (getMinorVersion p.version).peq (getMinorVersion c.version)

instance (p c : EntryTuple) : Decidable (boundary p c) := by
  unfold boundary; infer_instance

theorem linkStep_unlinked (p c : EntryTuple) (st : LinkState) :
    (linkStep p c st).unlinked =
      if boundary p c then finalizeAt st.unlinked p st.prevZMax st.curSkips
      else st.unlinked := by
  by_cases hA : p.arch = c.arch <;> by_cases hK : p.kind = c.kind <;>
    by_cases hX : (getMajorVersion p.version).peq (getMajorVersion c.version) <;>
    by_cases hY : (getMinorVersion p.version).peq (getMinorVersion c.version) <;>
    simp [linkStep, boundary, hA, hK, hX, hY]

theorem linkStep_prevZMax (p c : EntryTuple) (st : LinkState) :
    (linkStep p c st).prevZMax =
      if ¬ p.arch = c.arch ∨ ¬ p.kind = c.kind ∨
          ¬ (getMajorVersion p.version).peq (getMajorVersion c.version) then ""
      else if ¬ (getMinorVersion p.version).peq (getMinorVersion c.version) then p.name
      else st.prevZMax := by
  by_cases hA : p.arch = c.arch <;> by_cases hK : p.kind = c.kind <;>
    by_cases hX : (getMajorVersion p.version).peq (getMajorVersion c.version) <;>
    by_cases hY : (getMinorVersion p.version).peq (getMinorVersion c.version) <;>
    simp [linkStep, hA, hK, hX, hY]

/-- Store invariant: every stored channel's name field equals its key. -/
def KeyedStore (m : List (String × Channel)) : Prop :=
  ∀ kc ∈ m, kc.2.name = kc.1

theorem generateChannelsState_keyed (sv : SemverTemplate) (streamOrder : List StreamType)
    (bv : BundleVersions) : KeyedStore (generateChannelsState sv streamOrder bv).unlinked := by
  unfold generateChannelsState
  refine foldlPreserve (fun st : GenState => KeyedStore st.unlinked) _ ?_ _ _ ?_
  · intro st arch h
    unfold processArchetype
    refine foldlPreserve (fun st : GenState => KeyedStore st.unlinked) _ ?_ _ _ h
    intro st b h
    unfold addEntriesForBundle
    refine foldlPreserve (fun st : GenState => KeyedStore st.unlinked) _ ?_ _ _ h
    intro st kind h
    unfold addEntryForKind
    cases hl : lookupChan st.unlinked (channelName kind arch b.2) <;> simp only
    · intro kc hkc
      rcases List.mem_append.mp hkc with hkc | hkc
      · exact h kc hkc
      · simp only [List.mem_singleton] at hkc
        subst hkc
        rfl
    · intro kc hkc
      rcases mem_updateChan hkc with hkc | ⟨y, hy, rfl⟩
      · exact h kc hkc
      · exact h y hy
  · intro kc hkc
    simp at hkc

/-- Slot fact: the tuple's slot holds an entry carrying the tuple's bundle
name and still-empty edges. -/
def DefaultFact (m : List (String × Channel)) (t : EntryTuple) : Prop :=
  ∃ e, entryAt m t.parent t.index = some e ∧ e.name = t.name ∧
    e.replaces = "" ∧ e.skips = []

/-- Slot fact: the tuple's slot holds an entry carrying the tuple's bundle
name whose replaces target, when non-empty, is a same-tier bundle of
strictly lower version. -/
def FinFact (bv : BundleVersions) (m : List (String × Channel)) (t : EntryTuple) : Prop :=
  ∃ e, entryAt m t.parent t.index = some e ∧ e.name = t.name ∧
    (e.replaces = "" ∨
      ∃ w, lookupV (bv.get t.arch) e.replaces = some w ∧ w.lt t.version)

theorem tupleLess_irrefl (a : EntryTuple) : ¬ tupleLess a a :=
  fun h => tupleLess_asymm h h

theorem version_not_lt_of_not_tupleLess {a b : EntryTuple} (h : ¬ tupleLess b a)
    (hA : a.arch = b.arch) (hK : a.kind = b.kind) : ¬ b.version.lt a.version :=
  fun hv => h (Or.inr ⟨by rw [hA], Or.inr ⟨by rw [hK], hv⟩⟩)

theorem version_lt_of_not_tupleLess {a b : EntryTuple} (h : ¬ tupleLess b a)
    (hA : a.arch = b.arch) (hK : a.kind = b.kind)
    (hY : ¬ (getMinorVersion a.version).peq (getMinorVersion b.version)) :
    a.version.lt b.version := by
  have hv := version_not_lt_of_not_tupleLess h hA hK
  rcases Version.trichotomy a.version b.version with hlt | hpeq | hgt
  · exact hlt
  · exfalso
    obtain ⟨h1, h2⟩ := Version.peq_major_minor hpeq
    exact hY (getMinorVersion_peq_iff.mpr ⟨h1, h2⟩)
  · exact absurd hgt hv

theorem linkScan_master (bv : BundleVersions) :
    ∀ (rem : List EntryTuple) (prev : EntryTuple) (st : LinkState),
      List.Chain' (fun a b => ¬ tupleLess b a) (prev :: rem) →
      (∀ t ∈ prev :: rem, lookupV (bv.get t.arch) t.name = some t.version) →
      (prev :: rem).Pairwise (fun t t' => ¬ t.parent = t'.parent ∨ ¬ t.index = t'.index) →
      (st.prevZMax = "" ∨
        ∃ w, lookupV (bv.get prev.arch) st.prevZMax = some w ∧ w.lt prev.version) →
      (∀ t ∈ prev :: rem, DefaultFact st.unlinked t) →
      sameShape st.unlinked (linkScanAll prev rem st) ∧
      (∀ p i, (∀ t ∈ prev :: rem, ¬ (t.parent = p ∧ t.index = i)) →
        entryAt (linkScanAll prev rem st) p i = entryAt st.unlinked p i) ∧
      (∀ t ∈ prev :: rem, FinFact bv (linkScanAll prev rem st) t) ∧
      List.Chain' (fun a b => ¬ boundary a b → DefaultFact (linkScanAll prev rem st) a)
        (prev :: rem)
  | [], prev, st, hchain, htier, hdist, hz, hdef => by
    refine ⟨sameShape_finalizeAt _ _ _ _, ?_, ?_, ?_⟩
    · intro p i hun
      show entryAt (finalizeAt st.unlinked prev st.prevZMax st.curSkips) p i = _
      rw [entryAt_finalizeAt, if_neg (hun prev (List.mem_singleton.mpr rfl))]
    · intro t ht
      rw [List.mem_singleton] at ht
      subst ht
      obtain ⟨e0, he0, hname, hrep, _⟩ := hdef t (List.mem_singleton.mpr rfl)
      refine ⟨finalizeEntry st.prevZMax st.curSkips e0, ?_, hname, ?_⟩
      · show entryAt (finalizeAt st.unlinked t st.prevZMax st.curSkips) t.parent t.index = _
        rw [entryAt_finalizeAt, if_pos ⟨rfl, rfl⟩, he0]
        rfl
      · rcases hz with hz | ⟨w, hw, hlt⟩
        · exact Or.inl hz
        · exact Or.inr ⟨w, hw, hlt⟩
    · exact List.chain'_singleton _
  | cur :: rest, prev, st, hchain, htier, hdist, hz, hdef => by
    obtain ⟨hpc, hchain'⟩ := List.chain'_cons.mp hchain
    have hdisthd : ∀ t ∈ cur :: rest,
        ¬ prev.parent = t.parent ∨ ¬ prev.index = t.index :=
      (List.pairwise_cons.mp hdist).1
    have hdist' := (List.pairwise_cons.mp hdist).2
    have htier' : ∀ t ∈ cur :: rest, lookupV (bv.get t.arch) t.name = some t.version :=
      fun t ht => htier t (List.mem_cons_of_mem _ ht)
    have hstep_entry : ∀ p i, ¬ (prev.parent = p ∧ prev.index = i) →
        entryAt (linkStep prev cur st).unlinked p i = entryAt st.unlinked p i := by
      intro p i hni
      rw [linkStep_unlinked]
      split
      · rw [entryAt_finalizeAt, if_neg hni]
      · rfl
    have hz' : (linkStep prev cur st).prevZMax = "" ∨
        ∃ w, lookupV (bv.get cur.arch) (linkStep prev cur st).prevZMax = some w ∧
          w.lt cur.version := by
      rw [linkStep_prevZMax]
      by_cases hR : ¬ prev.arch = cur.arch ∨ ¬ prev.kind = cur.kind ∨
          ¬ (getMajorVersion prev.version).peq (getMajorVersion cur.version)
      · rw [if_pos hR]
        exact Or.inl rfl
      · rw [if_neg hR]
        push_neg at hR
        obtain ⟨hA, hK, _⟩ := hR
        by_cases hY : ¬ (getMinorVersion prev.version).peq (getMinorVersion cur.version)
        · rw [if_pos hY]
          refine Or.inr ⟨prev.version, ?_, ?_⟩
          · rw [← hA]
            exact htier prev (List.mem_cons_self _ _)
          · exact version_lt_of_not_tupleLess hpc hA hK hY
        · rw [if_neg hY]
          rcases hz with hz | ⟨w, hw, hlt⟩
          · exact Or.inl hz
          · refine Or.inr ⟨w, by rw [← hA]; exact hw, ?_⟩
            have hnl := version_not_lt_of_not_tupleLess hpc hA hK
            rcases Version.trichotomy prev.version cur.version with h | h | h
            · exact Version.lt_trans hlt h
            · exact Version.lt_of_lt_of_peq hlt h
            · exact absurd h hnl
    have hdef' : ∀ t ∈ cur :: rest, DefaultFact (linkStep prev cur st).unlinked t := by
      intro t ht
      obtain ⟨e0, he0, hname, hrep, hsk⟩ := hdef t (List.mem_cons_of_mem _ ht)
      refine ⟨e0, ?_, hname, hrep, hsk⟩
      rw [hstep_entry t.parent t.index ?_]
      · exact he0
      · intro hc
        rcases hdisthd t ht with h | h
        · exact h hc.1
        · exact h hc.2
    have ih := linkScan_master bv rest cur (linkStep prev cur st) hchain' htier' hdist'
      hz' hdef'
    obtain ⟨ihShape, ihUn, ihFin, ihChain⟩ := ih
    have hprevslot : ∀ t ∈ cur :: rest, ¬ (t.parent = prev.parent ∧ t.index = prev.index) := by
      intro t ht hc
      rcases hdisthd t ht with h | h
      · exact h hc.1.symm
      · exact h hc.2.symm
    have hprevR : entryAt (linkScanAll cur rest (linkStep prev cur st)) prev.parent
        prev.index = entryAt (linkStep prev cur st).unlinked prev.parent prev.index :=
      ihUn prev.parent prev.index hprevslot
    have hshapeStep : sameShape st.unlinked (linkStep prev cur st).unlinked := by
      rw [linkStep_unlinked]
      split
      · exact sameShape_finalizeAt _ _ _ _
      · exact sameShape_refl _
    have hprevDefault : ¬ boundary prev cur →
        DefaultFact (linkScanAll cur rest (linkStep prev cur st)) prev := by
      intro hnb
      obtain ⟨e0, he0, hname, hrep, hsk⟩ := hdef prev (List.mem_cons_self _ _)
      refine ⟨e0, ?_, hname, hrep, hsk⟩
      rw [hprevR, linkStep_unlinked, if_neg hnb]
      exact he0
    have hreduce : linkScanAll prev (cur :: rest) st =
        linkScanAll cur rest (linkStep prev cur st) := rfl
    rw [hreduce]
    refine ⟨sameShape_trans hshapeStep ihShape, ?_, ?_, ?_⟩
    · intro p i hun
      rw [ihUn p i (fun t ht => hun t (List.mem_cons_of_mem _ ht)),
        hstep_entry p i (hun prev (List.mem_cons_self _ _))]
    · intro t ht
      rcases List.mem_cons.mp ht with rfl | ht'
      · by_cases hb : boundary t cur
        · obtain ⟨e0, he0, hname, _, _⟩ := hdef t (List.mem_cons_self _ _)
          refine ⟨finalizeEntry st.prevZMax st.curSkips e0, ?_, hname, ?_⟩
          · rw [hprevR, linkStep_unlinked, if_pos hb, entryAt_finalizeAt,
              if_pos ⟨rfl, rfl⟩, he0]
            rfl
          · rcases hz with hz | ⟨w, hw, hlt⟩
            · exact Or.inl hz
            · exact Or.inr ⟨w, hw, hlt⟩
        · obtain ⟨e0, he0, hname, hrep, _⟩ := hprevDefault hb
          exact ⟨e0, he0, hname, Or.inl hrep⟩
      · exact ihFin t ht'
    · exact List.chain'_cons.mpr ⟨hprevDefault, ihChain⟩

theorem pairwise_mem_of_ne {α : Type _} {R : α → α → Prop} {l : List α}
    (hsym : ∀ a b, R a b → R b a) (hp : l.Pairwise R) {a b : α}
    (ha : a ∈ l) (hb : b ∈ l) (hne : a ≠ b) : R a b := by
  obtain ⟨i, hi, rfl⟩ := List.mem_iff_getElem.mp ha
  obtain ⟨j, hj, rfl⟩ := List.mem_iff_getElem.mp hb
  rcases Nat.lt_trichotomy i j with h | h | h
  · exact List.pairwise_iff_getElem.mp hp i j hi hj h
  · subst h
    exact absurd rfl hne
  · exact hsym _ _ (List.pairwise_iff_getElem.mp hp j i hj hi h)

theorem slot_unique {l : List EntryTuple}
    (hp : l.Pairwise (fun t t' => ¬ t.parent = t'.parent ∨ ¬ t.index = t'.index))
    {t t' : EntryTuple} (ht : t ∈ l) (ht' : t' ∈ l)
    (hpar : t.parent = t'.parent) (hidx : t.index = t'.index) : t = t' := by
  by_cases h : t = t'
  · exact h
  · rcases pairwise_mem_of_ne (fun a b hab => by
      rcases hab with h | h
      · exact Or.inl (fun hc => h hc.symm)
      · exact Or.inr (fun hc => h hc.symm)) hp ht ht' h with hc | hc
    · exact absurd hpar hc
    · exact absurd hidx hc

theorem ascend_le {bv : BundleVersions} {ks : List StreamType} {st : GenState}
    (hg : GenGood bv ks st) {cN : String} {ch : Channel}
    (hlook : lookupChan st.unlinked cN = some ch) :
    ∀ (j i : Nat), i < j → j < ch.entries.length →
      ∃ t t', t ∈ st.edges ∧ t' ∈ st.edges ∧ t.parent = cN ∧ t.index = i ∧
        t'.parent = cN ∧ t'.index = j ∧ t.version.lt t'.version := by
  intro j
  induction j with
  | zero =>
    intro i hi
    omega
  | succ j ih =>
    intro i hi hlen
    by_cases hij : i = j
    · subst hij
      exact hg.ascend cN ch hlook i hlen
    · have hij' : i < j := by omega
      have hjlen : j < ch.entries.length := by omega
      obtain ⟨t, t'', h1, h2, h3, h4, h5, h6, h7⟩ := ih i hij' hjlen
      obtain ⟨u, u', g1, g2, g3, g4, g5, g6, g7⟩ := hg.ascend cN ch hlook j hlen
      have heq : t'' = u := slot_unique hg.slotDist h2 g1 (h5.trans g3.symm) (h6.trans g4.symm)
      exact ⟨t, u', h1, g2, h3, h4, g5, g6, Version.lt_trans (heq ▸ h7) g7⟩

theorem lex_le_of_not_lt {v w : Version} (h : ¬ w.lt v) :
    v.major < w.major ∨ (v.major = w.major ∧ (v.minor < w.minor ∨ v.minor = w.minor)) := by
  rcases Version.trichotomy v w with hlt | hpeq | hgt
  · rcases Version.lt_major_minor hlt with h1 | h1 | h1
    · exact Or.inl h1
    · exact Or.inr ⟨h1.1, Or.inl h1.2⟩
    · exact Or.inr ⟨h1.1, Or.inr h1.2⟩
  · obtain ⟨h1, h2⟩ := Version.peq_major_minor hpeq
    exact Or.inr ⟨h1, Or.inr h2⟩
  · exact absurd hgt h

theorem tuple_sandwich {a b c : EntryTuple} (h1 : ¬ tupleLess b a) (h2 : ¬ tupleLess c b)
    (hA : a.arch = c.arch) (hK : a.kind = c.kind)
    (hmaj : a.version.major = c.version.major)
    (hmin : a.version.minor = c.version.minor) : ¬ boundary a b := by
  unfold tupleLess at h1 h2
  push_neg at h1 h2
  have hac : channelPriorities c.arch = channelPriorities a.arch := by rw [hA]
  have heqba : channelPriorities b.arch = channelPriorities a.arch := by
    have hab := h1.1
    have hbc := h2.1
    omega
  have heqcb : channelPriorities c.arch = channelPriorities b.arch := by omega
  have hBA : b.arch = a.arch := channelPriorities_inj heqba
  obtain ⟨hk1, hk1'⟩ := h1.2 heqba
  obtain ⟨hk2, hk2'⟩ := h2.2 heqcb
  have hkac : streamTypePriorities c.kind = streamTypePriorities a.kind := by rw [hK]
  have heqkba : streamTypePriorities b.kind = streamTypePriorities a.kind := by
    have hab := hk1
    have hbc := hk2
    omega
  have hKBA : b.kind = a.kind := streamTypePriorities_inj heqkba
  have hv1 : ¬ b.version.lt a.version := hk1' heqkba
  have hv2 : ¬ c.version.lt b.version := hk2' (by omega)
  have l1 := lex_le_of_not_lt hv1
  have l2 := lex_le_of_not_lt hv2
  have hbm : b.version.major = a.version.major ∧ b.version.minor = a.version.minor := by
    rcases l1 with h1a | ⟨h1a, h1b⟩ <;> rcases l2 with h2a | ⟨h2a, h2b⟩
    · omega
    · omega
    · omega
    · rcases h1b with h1b | h1b <;> rcases h2b with h2b | h2b <;> omega
  intro hb
  rcases hb with h | h | h | h
  · exact h hBA.symm
  · exact h hKBA.symm
  · exact h (getMajorVersion_peq_iff.mpr hbm.1.symm)
  · exact h (getMinorVersion_peq_iff.mpr ⟨hbm.1.symm, hbm.2.symm⟩)

theorem Version.lt_of_lex {v w : Version}
    (h : v.major < w.major ∨ (v.major = w.major ∧ v.minor < w.minor)) : v.lt w := by
  rw [Version.lt_iff]
  rcases h with h | ⟨h1, h2⟩
  · exact Or.inl h
  · exact Or.inr ⟨h1, Or.inl h2⟩

theorem channelName_congr {k : StreamType} {a : ChannelArchetype} {v w : Version}
    (hmaj : v.major = w.major) (hmin : k = StreamType.minor → v.minor = w.minor) :
    channelName k a v = channelName k a w := by
  cases k
  · simp only [channelName, channelNameFromMajor, hmaj]
  · simp only [channelName, channelNameFromMinor, hmaj, hmin rfl]

/-- Facts holding of every channel of the linked output, relative to the
pre-linking synthesis state: every entry corresponds to a recorded
placement tuple whose replaces target (when non-empty) is a same-tier
bundle of strictly lower version; adjacent entries come from tuples of
strictly ascending version; and an entry followed (not necessarily
adjacently) by one in the same minor group keeps empty edges. -/
structure OutFacts (bv : BundleVersions) (st : GenState) (ch : Channel) : Prop where
  tup : ∀ i e, ch.entries[i]? = some e →
    ∃ t, t ∈ st.edges ∧ t.parent = ch.name ∧ t.index = i ∧ e.name = t.name ∧
      t.parent = channelName t.kind t.arch t.version ∧
      lookupV (bv.get t.arch) t.name = some t.version ∧
      (e.replaces = "" ∨ ∃ w, lookupV (bv.get t.arch) e.replaces = some w ∧ w.lt t.version)
  asc : ∀ i, i + 1 < ch.entries.length →
    ∃ t t', t ∈ st.edges ∧ t' ∈ st.edges ∧ t.parent = ch.name ∧ t.index = i ∧
      t'.parent = ch.name ∧ t'.index = i + 1 ∧ t.version.lt t'.version
  nofin : ∀ i j e, i < j → j < ch.entries.length → ch.entries[i]? = some e →
    ∀ t t', t ∈ st.edges → t' ∈ st.edges → t.parent = ch.name → t.index = i →
      t'.parent = ch.name → t'.index = j →
      t.version.major = t'.version.major → t.version.minor = t'.version.minor →
      e.replaces = "" ∧ e.skips = []

theorem output_facts (sv : SemverTemplate) (streamOrder : List StreamType)
    (chanOrder : List String) (bv : BundleVersions) (hv : ValidBV bv)
    (hnd : streamOrder.Nodup) {chans : List Channel}
    (hout : (generateChannels sv streamOrder chanOrder bv).channels = some chans) :
    ∀ ch ∈ chans, OutFacts bv (generateChannelsState sv streamOrder bv) ch := by
  have hg := (generateChannelsState_master sv streamOrder bv hv hnd).1
  unfold generateChannels at hout
  simp only at hout
  unfold linkChannels at hout
  set st := generateChannelsState sv streamOrder bv with hst
  cases hs : sortEntries st.edges with
  | nil =>
    rw [hs] at hout
    exact absurd hout (by simp)
  | cons t0 rest =>
    rw [hs] at hout
    simp only [Option.some.injEq] at hout
    subst hout
    have hperm : List.Perm (t0 :: rest) st.edges := by
      rw [← hs]
      exact List.perm_insertionSort _ _
    have hLsort : (t0 :: rest).Pairwise (fun a b : EntryTuple => ¬ tupleLess b a) := by
      rw [← hs]
      exact List.sorted_insertionSort _ _
    have hchain : List.Chain' (fun a b : EntryTuple => ¬ tupleLess b a) (t0 :: rest) :=
      hLsort.chain'
    have htier : ∀ t ∈ t0 :: rest, lookupV (bv.get t.arch) t.name = some t.version :=
      fun t ht => hg.tierMem t (hperm.subset ht)
    have hdistL : (t0 :: rest).Pairwise
        (fun t t' => ¬ t.parent = t'.parent ∨ ¬ t.index = t'.index) := by
      refine (hperm.pairwise_iff ?_).mpr hg.slotDist
      intro x y hxy
      rcases hxy with h | h
      · exact Or.inl (fun hc => h hc.symm)
      · exact Or.inr (fun hc => h hc.symm)
    have hclean := generateChannelsState_clean sv streamOrder bv
    have hdef0 : ∀ t ∈ t0 :: rest, DefaultFact st.unlinked t := by
      intro t ht
      obtain ⟨e, he, hname⟩ := hg.corr t (hperm.subset ht)
      obtain ⟨ch0, hlook, hget⟩ := entryAt_eq_some.mp he
      obtain ⟨hlt, hgetE⟩ := List.getElem?_eq_some.mp hget
      obtain ⟨hrep, hsk⟩ := hclean (t.parent, ch0) (lookupChan_mem hlook) e
        (hgetE ▸ List.getElem_mem hlt)
      exact ⟨e, he, hname, hrep, hsk⟩
    obtain ⟨hShape, hUn, hFin, hChain⟩ :=
      linkScan_master bv rest t0 ⟨st.unlinked, "", []⟩ hchain htier hdistL (Or.inl rfl) hdef0
    intro ch hch
    obtain ⟨cN, hcN, hlookR⟩ := List.mem_filterMap.mp hch
    have hsh := hShape cN
    rw [hlookR] at hsh
    cases hlook0 : lookupChan st.unlinked cN with
    | none =>
      rw [hlook0] at hsh
      exact absurd hsh (by simp)
    | some ch0 =>
      rw [hlook0] at hsh
      have hshape : chanShape ch = chanShape ch0 := by
        simpa using hsh
      have hnames : ch.entries.map (fun e => e.name) = ch0.entries.map (fun e => e.name) :=
        congrArg (fun q => q.2.2.2) hshape
      have hchname : ch.name = ch0.name := congrArg (fun q => q.2.1) hshape
      have hchcN : ch.name = cN :=
        hchname.trans (generateChannelsState_keyed sv streamOrder bv (cN, ch0)
          (lookupChan_mem hlook0))
      have hlen : ch.entries.length = ch0.entries.length := by
        have := congrArg List.length hnames
        simpa using this
      have hentry : ∀ i, entryAt (linkScanAll t0 rest ⟨st.unlinked, "", []⟩) cN i =
          ch.entries[i]? := by
        intro i
        unfold entryAt
        rw [hlookR]
      refine ⟨?_, ?_, ?_⟩
      · intro i e hie
        obtain ⟨hilen, _⟩ := List.getElem?_eq_some.mp hie
        obtain ⟨t, htmem, htpar, htidx⟩ := hg.surj cN ch0 hlook0 i (hlen ▸ hilen)
        obtain ⟨ef, hef, hefname, hefQ⟩ := hFin t (hperm.mem_iff.mpr htmem)
        rw [htpar, htidx, hentry i, hie] at hef
        injection hef with hef
        subst hef
        exact ⟨t, htmem, htpar.trans hchcN.symm, htidx, hefname,
          hg.parents t htmem, hg.tierMem t htmem, hefQ⟩
      · intro i hi1
        obtain ⟨t, t', h1, h2, h3, h4, h5, h6, h7⟩ :=
          hg.ascend cN ch0 hlook0 i (hlen ▸ hi1)
        exact ⟨t, t', h1, h2, h3.trans hchcN.symm, h4, h5.trans hchcN.symm, h6, h7⟩
      · intro i j e hij hjlen hie t t' htm htm' htp hti htp' hti' hmaj hmin
        have htpcN : t.parent = cN := htp.trans hchcN
        have htpcN' : t'.parent = cN := htp'.trans hchcN
        obtain ⟨u, u', g1, g2, g3, g4, g5, g6, g7⟩ :=
          ascend_le hg hlook0 j i hij (hlen ▸ hjlen)
        have heu : t = u := slot_unique hg.slotDist htm g1 (htpcN.trans g3.symm)
          (hti.trans g4.symm)
        have heu' : t' = u' := slot_unique hg.slotDist htm' g2 (htpcN'.trans g5.symm)
          (hti'.trans g6.symm)
        have hlt : t.version.lt t'.version := by
          rw [heu, heu']
          exact g7
        have hpars : channelName t.kind t.arch t.version =
            channelName t'.kind t'.arch t'.version := by
          rw [← hg.parents t htm, ← hg.parents t' htm', htpcN, htpcN']
        obtain ⟨hkind, harch, _, _⟩ := channelName_inj hpars
        have hLess : tupleLess t t' :=
          Or.inr ⟨by rw [harch], Or.inr ⟨by rw [hkind], hlt⟩⟩
        obtain ⟨p, hp, hgp⟩ := List.mem_iff_getElem.mp (hperm.mem_iff.mpr htm)
        obtain ⟨q, hq, hgq⟩ := List.mem_iff_getElem.mp (hperm.mem_iff.mpr htm')
        have hpq : p < q := by
          rcases Nat.lt_trichotomy p q with h | h | h
          · exact h
          · exfalso
            subst h
            rw [hgp] at hgq
            subst hgq
            exact tupleLess_irrefl t hLess
          · exfalso
            have := List.pairwise_iff_getElem.mp hLsort q p hq hp h
            rw [hgp, hgq] at this
            exact this hLess
        have hp1 : p + 1 < (t0 :: rest).length := by omega
        obtain ⟨b, hgb⟩ : ∃ b, (t0 :: rest)[p + 1]? = some b :=
          ⟨_, List.getElem?_eq_getElem hp1⟩
        obtain ⟨hlt1, hbe⟩ := List.getElem?_eq_some.mp hgb
        have hb1 : ¬ tupleLess b t := by
          have h2 := List.pairwise_iff_getElem.mp hLsort p (p + 1) hp hp1 (by omega)
          rw [hgp, hbe] at h2
          exact h2
        have hb2 : ¬ tupleLess t' b := by
          by_cases hq1 : p + 1 = q
          · intro hc
            subst hq1
            have hbq : b = t' := hbe.symm.trans hgq
            rw [hbq] at hc
            exact tupleLess_irrefl t' hc
          · have h2 := List.pairwise_iff_getElem.mp hLsort (p + 1) q hp1 hq (by omega)
            rw [hgq, hbe] at h2
            exact h2
        have hnb : ¬ boundary t b :=
          tuple_sandwich hb1 hb2 harch hkind hmaj hmin
        have hcf := List.chain'_iff_get.mp hChain p (by
          simp only [List.length_cons] at hp1 ⊢
          omega)
        simp only [List.get_eq_getElem] at hcf
        rw [hgp, hbe] at hcf
        obtain ⟨e0, he0, _, hrep, hsk⟩ := hcf hnb
        rw [hti, htpcN, hentry i, hie] at he0
        injection he0 with he0
        subst he0
        exact ⟨hrep, hsk⟩

/-- Claim C7: for every valid input (distinct bundle names and
non-precedence-equal versions per tier, duplicate-free stream-kind
enumeration), the entries of every channel in the linked output are in
strictly ascending semantic-version order of the bundles they name, the
versions being those recorded in some tier's extracted mapping. -/
theorem C7_entries_ascending (sv : SemverTemplate) (streamOrder : List StreamType)
    (chanOrder : List String) (bv : BundleVersions) (hv : ValidBV bv)
    (hnd : streamOrder.Nodup) {chans : List Channel}
    (hout : (generateChannels sv streamOrder chanOrder bv).channels = some chans) :
    ∀ ch ∈ chans, ∀ i e e', ch.entries[i]? = some e → ch.entries[i + 1]? = some e' →
      ∃ a v v', lookupV (bv.get a) e.name = some v ∧
        lookupV (bv.get a) e'.name = some v' ∧ v.lt v' := by
  intro ch hch i e e' he he'
  have hfacts := output_facts sv streamOrder chanOrder bv hv hnd hout ch hch
  have hg := (generateChannelsState_master sv streamOrder bv hv hnd).1
  obtain ⟨t, htm, htp, hti, hname, hpar, hlk, _⟩ := hfacts.tup i e he
  obtain ⟨t', htm', htp', hti', hname', hpar', hlk', _⟩ := hfacts.tup (i + 1) e' he'
  have hlen' : i + 1 < ch.entries.length := by
    obtain ⟨h, _⟩ := List.getElem?_eq_some.mp he'
    exact h
  obtain ⟨u, u', g1, g2, g3, g4, g5, g6, g7⟩ := hfacts.asc i hlen'
  have h1 : t = u := slot_unique hg.slotDist htm g1 (htp.trans g3.symm) (hti.trans g4.symm)
  have h2 : t' = u' :=
    slot_unique hg.slotDist htm' g2 (htp'.trans g5.symm) (hti'.trans g6.symm)
  have hpeq : channelName t.kind t.arch t.version =
      channelName t'.kind t'.arch t'.version := by
    rw [← hpar, ← hpar', htp, htp']
  obtain ⟨_, harch, _, _⟩ := channelName_inj hpeq
  refine ⟨t.arch, t.version, t'.version, ?_, ?_, ?_⟩
  · rw [hname]
    exact hlk
  · rw [hname', harch]
    exact hlk'
  · rw [h1, h2]
    exact g7

/-- Witness for claim C7 at the spec scenario: in channel `stable-v1.0`
the adjacent entries a and b name bundles of strictly ascending stable-tier
versions. -/
theorem C7_witness :
    ∃ a v v', lookupV (scenarioBV.get a) "a" = some v ∧
      lookupV (scenarioBV.get a) "b" = some v' ∧ v.lt v' :=
  @C7_entries_ascending scenarioSV [.major, .minor] ["stable-v1.0", "stable-v1.1"]
    scenarioBV (by intro arch; cases arch <;> exact ⟨by decide, by decide⟩) (by decide)
    scenarioActual (by decide)
    { schema := "olm.channel", name := "stable-v1.0", pkg := "pkg",
      entries := [{ name := "a" }, { name := "b", replaces := "", skips := ["a"] }] }
    (by decide) 0 { name := "a" } { name := "b", replaces := "", skips := ["a"] }
    (by decide) (by decide)

/-- Claim C2, counterexample: in the spec scenario the entry c of channel
`stable-v1.1` has the non-empty replaces target "b", but no entry of that
channel is named "b" — the target lives in the previous minor channel
`stable-v1.0`. -/
theorem C2_counterexample :
    scenarioOut.channels = some scenarioActual ∧
      ∃ ch ∈ scenarioActual, ∃ e ∈ ch.entries, ¬ e.replaces = "" ∧
        ∀ e' ∈ ch.entries, ¬ e'.name = e.replaces := by
  exact ⟨by decide, by decide⟩

/-- Claim C2, amended: for every valid input, whenever an entry of an
output channel has a non-empty replaces field, the target names a bundle
recorded in the same tier as the entry's own bundle whose semantic version
is strictly lower — but not necessarily an entry of the same channel. -/
theorem C2_amended (sv : SemverTemplate) (streamOrder : List StreamType)
    (chanOrder : List String) (bv : BundleVersions) (hv : ValidBV bv)
    (hnd : streamOrder.Nodup) {chans : List Channel}
    (hout : (generateChannels sv streamOrder chanOrder bv).channels = some chans) :
    ∀ ch ∈ chans, ∀ e ∈ ch.entries, ¬ e.replaces = "" →
      ∃ a w v, lookupV (bv.get a) e.replaces = some w ∧
        lookupV (bv.get a) e.name = some v ∧ w.lt v := by
  intro ch hch e he hne
  have hfacts := output_facts sv streamOrder chanOrder bv hv hnd hout ch hch
  obtain ⟨i, hi, hgetE⟩ := List.mem_iff_getElem.mp he
  have hie : ch.entries[i]? = some e := by
    rw [List.getElem?_eq_some]
    exact ⟨hi, hgetE⟩
  obtain ⟨t, htm, htp, hti, hname, hpar, hlk, hQ⟩ := hfacts.tup i e hie
  rcases hQ with hQ | ⟨w, hw, hlt⟩
  · exact absurd hQ hne
  · refine ⟨t.arch, w, t.version, hw, ?_, hlt⟩
    rw [hname]
    exact hlk

/-- Witness for claim C2 at the spec scenario: the entry c of
`stable-v1.1` replaces "b", and b's stable-tier version 1.0.1 is strictly
below c's version 1.1.0. -/
theorem C2_witness :
    ∃ a w v, lookupV (scenarioBV.get a) "b" = some w ∧
      lookupV (scenarioBV.get a) "c" = some v ∧ w.lt v :=
  @C2_amended scenarioSV [.major, .minor] ["stable-v1.0", "stable-v1.1"] scenarioBV
    (by intro arch; cases arch <;> exact ⟨by decide, by decide⟩) (by decide)
    scenarioActual (by decide)
    { schema := "olm.channel", name := "stable-v1.1", pkg := "pkg",
      entries := [{ name := "c", replaces := "b", skips := ["a"] }] } (by decide)
    { name := "c", replaces := "b", skips := ["a"] } (by decide) (by decide)

theorem count_le_groups {α β : Type _} [DecidableEq β] (l : List α) (p : α → Bool)
    (f : α → β)
    (h : l.Pairwise (fun x y => p x = true → p y = true → f x ≠ f y)) :
    (l.filter p).length ≤ ((l.map f).dedup).length := by
  have h1 : (l.filter p).Pairwise (fun x y => f x ≠ f y) := by
    refine List.Pairwise.imp_of_mem ?_ (h.filter p)
    intro x y hx hy hxy
    exact hxy (List.of_mem_filter hx) (List.of_mem_filter hy)
  have h2 : ((l.filter p).map f).Nodup := List.pairwise_map.mpr h1
  calc (l.filter p).length
      = ((l.filter p).map f).length := (List.length_map _ _).symm
    _ = ((l.filter p).map f).toFinset.card := (List.toFinset_card_of_nodup h2).symm
    _ ≤ ((l.map f).toFinset).card := by
        refine Finset.card_le_card ?_
        intro x hx
        rw [List.mem_toFinset] at hx ⊢
        obtain ⟨e, he, rfl⟩ := List.mem_map.mp hx
        exact List.mem_map.mpr ⟨e, List.mem_of_mem_filter he, rfl⟩
    _ = ((l.map f).dedup).length := List.card_toFinset _

/-- Tier mapping with a single stable bundle a at 1.0.0, refuting the
count form of claim C3: its one channel has one minor group but zero
entries carrying a non-empty replaces or skips. -/
def c3BV : BundleVersions :=
  ⟨[], [], [("a", relVersion 1 0 0)]⟩

/-- Channel the code produces for the single-bundle tier. -/
def c3Chan : Channel :=
  { schema := "olm.channel", name := "stable-v1.0", pkg := "pkg",
    entries := [{ name := "a" }] }

/-- Claim C3, counterexample: on a stable tier holding only a at 1.0.0
with minor channels enabled, the output is the single channel
`stable-v1.0` whose sole entry carries empty replaces and skips, so the
number of edge-carrying entries (zero) differs from the number of distinct
minor groups (one). -/
theorem C3_counterexample :
    (generateChannels scenarioSV [.major, .minor] ["stable-v1.0"] c3BV).channels =
      some [c3Chan] ∧
    (c3Chan.entries.filter fun e =>
      decide (¬ (e.replaces = "" ∧ e.skips = []))).length = 0 ∧
    ((c3Chan.entries.map fun e =>
      match lookupV (c3BV.get ChannelArchetype.stable) e.name with
      | some v => (v.major, v.minor)
      | none => (0, 0)).dedup).length = 1 := by
  exact ⟨by decide, by decide, by decide⟩

/-- Claim C3, amended: in every output channel, an entry followed by a
later entry whose tier version lies in the same minor group carries empty
replaces and skips (only the closing, highest-Z entry of a Y-stream can
carry edges), and hence the number of edge-carrying entries is at most —
not necessarily equal to — the number of distinct minor groups present in
the channel. -/
theorem C3_amended (sv : SemverTemplate) (streamOrder : List StreamType)
    (chanOrder : List String) (bv : BundleVersions) (hv : ValidBV bv)
    (hnd : streamOrder.Nodup) {chans : List Channel}
    (hout : (generateChannels sv streamOrder chanOrder bv).channels = some chans) :
    ∀ ch ∈ chans, ∀ k a v0, ch.name = channelName k a v0 →
      (∀ i e e' v v', ch.entries[i]? = some e → ch.entries[i + 1]? = some e' →
        lookupV (bv.get a) e.name = some v → lookupV (bv.get a) e'.name = some v' →
        v.major = v'.major → v.minor = v'.minor → e.replaces = "" ∧ e.skips = []) ∧
      (ch.entries.filter fun e =>
        decide (¬ (e.replaces = "" ∧ e.skips = []))).length ≤
        ((ch.entries.map fun e =>
          match lookupV (bv.get a) e.name with
          | some v => (v.major, v.minor)
          | none => (0, 0)).dedup).length := by
  intro ch hch k a v0 hcn
  have hfacts := output_facts sv streamOrder chanOrder bv hv hnd hout ch hch
  constructor
  · intro i e e' v v' he he' hv1 hv2 hmaj hmin
    obtain ⟨t, htm, htp, hti, hname, hpar, hlk, _⟩ := hfacts.tup i e he
    obtain ⟨t', htm', htp', hti', hname', hpar', hlk', _⟩ := hfacts.tup (i + 1) e' he'
    have hta : t.arch = a := (channelName_inj (hpar.symm.trans (htp.trans hcn))).2.1
    have hta' : t'.arch = a := (channelName_inj (hpar'.symm.trans (htp'.trans hcn))).2.1
    have hveq : v = t.version := by
      rw [hname, ← hta] at hv1
      have := hv1.symm.trans hlk
      injection this
    have hveq' : v' = t'.version := by
      rw [hname', ← hta'] at hv2
      have := hv2.symm.trans hlk'
      injection this
    have hjlen : i + 1 < ch.entries.length := by
      obtain ⟨h, _⟩ := List.getElem?_eq_some.mp he'
      exact h
    exact hfacts.nofin i (i + 1) e (by omega) hjlen he t t' htm htm' htp hti htp' hti'
      (by rw [← hveq, ← hveq']; exact hmaj) (by rw [← hveq, ← hveq']; exact hmin)
  · refine count_le_groups ch.entries _ _ ?_
    rw [List.pairwise_iff_getElem]
    intro i j hi hj hij hPi hPj hfeq
    obtain ⟨ei, hei⟩ : ∃ e, ch.entries[i]? = some e := ⟨_, List.getElem?_eq_getElem hi⟩
    obtain ⟨ej, hej⟩ : ∃ e, ch.entries[j]? = some e := ⟨_, List.getElem?_eq_getElem hj⟩
    obtain ⟨hlt1, hbe1⟩ := List.getElem?_eq_some.mp hei
    obtain ⟨hlt2, hbe2⟩ := List.getElem?_eq_some.mp hej
    rw [hbe1] at hPi
    rw [hbe1, hbe2] at hfeq
    obtain ⟨t, htm, htp, hti, hname, hpar, hlk, _⟩ := hfacts.tup i ei hei
    obtain ⟨t', htm', htp', hti', hname', hpar', hlk', _⟩ := hfacts.tup j ej hej
    have hta : t.arch = a := (channelName_inj (hpar.symm.trans (htp.trans hcn))).2.1
    have hta' : t'.arch = a := (channelName_inj (hpar'.symm.trans (htp'.trans hcn))).2.1
    have hgi : (match lookupV (bv.get a) ei.name with
        | some v => (v.major, v.minor)
        | none => ((0 : Nat), (0 : Nat))) = (t.version.major, t.version.minor) := by
      rw [hname, ← hta, hlk]
    have hgj : (match lookupV (bv.get a) ej.name with
        | some v => (v.major, v.minor)
        | none => ((0 : Nat), (0 : Nat))) = (t'.version.major, t'.version.minor) := by
      rw [hname', ← hta', hlk']
    have hmm : t.version.major = t'.version.major ∧
        t.version.minor = t'.version.minor := by
      have := hgi.symm.trans (hfeq.trans hgj)
      exact Prod.mk.injEq .. ▸ this
    obtain ⟨hrep, hsk⟩ := hfacts.nofin i j ei hij hj hei
      t t' htm htm' htp hti htp' hti' hmm.1 hmm.2
    rw [hrep, hsk] at hPi
    simp at hPi

/-- Witness for claim C3 at the spec scenario channel `stable-v1.0`: its
non-final entry a (followed by b in the same 1.0 minor group) carries no
edges, and the edge-carrying count (one: entry b) is bounded by the number
of minor groups (one). -/
theorem C3_witness :
    (∀ i e e' v v',
      ([{ name := "a" }, { name := "b", replaces := "", skips := ["a"] }] :
        List ChannelEntry)[i]? = some e →
      ([{ name := "a" }, { name := "b", replaces := "", skips := ["a"] }] :
        List ChannelEntry)[i + 1]? = some e' →
      lookupV (scenarioBV.get ChannelArchetype.stable) e.name = some v →
      lookupV (scenarioBV.get ChannelArchetype.stable) e'.name = some v' →
      v.major = v'.major → v.minor = v'.minor → e.replaces = "" ∧ e.skips = []) ∧
    (([{ name := "a" }, { name := "b", replaces := "", skips := ["a"] }] :
      List ChannelEntry).filter fun e =>
      decide (¬ (e.replaces = "" ∧ e.skips = []))).length ≤
      ((([{ name := "a" }, { name := "b", replaces := "", skips := ["a"] }] :
        List ChannelEntry).map fun e =>
        match lookupV (scenarioBV.get ChannelArchetype.stable) e.name with
        | some v => (v.major, v.minor)
        | none => (0, 0)).dedup).length :=
  @C3_amended scenarioSV [.major, .minor] ["stable-v1.0", "stable-v1.1"] scenarioBV
    (by intro arch; cases arch <;> exact ⟨by decide, by decide⟩) (by decide)
    scenarioActual (by decide)
    { schema := "olm.channel", name := "stable-v1.0", pkg := "pkg",
      entries := [{ name := "a" }, { name := "b", replaces := "", skips := ["a"] }] }
    (by decide) StreamType.minor ChannelArchetype.stable (relVersion 1 0 0) (by decide)

/-- Tier mapping with a single candidate bundle a at version 0.0.0: its
channel-creation event never strictly beats the highwater sentinel, which
also starts at (candidate, 0.0.0). -/
def c6BV : BundleVersions :=
  ⟨[("a", relVersion 0 0 0)], [], []⟩

/-- Claim C6, counterexample: on a candidate-only input holding a at
0.0.0 with minor channels enabled, the rendered channel `candidate-v0.0`
holds the head, yet the default channel is the empty string — the creation
event (candidate, 0.0.0) does not strictly exceed the initial highwater
marker (candidate, 0.0.0), so the marker is never updated. -/
theorem C6_counterexample :
    (generateChannels scenarioSV [.major, .minor] ["candidate-v0.0"] c6BV).defaultChannel
      = "" ∧
    (generateChannels scenarioSV [.major, .minor] ["candidate-v0.0"] c6BV).channels =
      some [{ schema := "olm.channel", name := "candidate-v0.0", pkg := "pkg",
              entries := [{ name := "a" }] }] ∧
    ¬ channelName StreamType.minor ChannelArchetype.candidate (relVersion 0 0 0) = "" := by
  exact ⟨by decide, by decide, by decide⟩

/-- Claim C6, amended: for every valid input whose highest-priority
populated tier A either is not the candidate tier or holds only versions
strictly above 0.0.0, and with at least one stream kind enabled, the
default channel is the channel name formed from some enabled stream kind,
the tier A and the maximal version of tier A — so a higher-priority tier
always wins regardless of version, and within the tier the maximal
version's channel is chosen. -/
theorem C6_amended (sv : SemverTemplate) (streamOrder : List StreamType)
    (chanOrder : List String) (bv : BundleVersions) (hv : ValidBV bv)
    (hnd : streamOrder.Nodup) (A : ChannelArchetype) (bmax : String) (vmax : Version)
    (htop : ∀ arch, channelPriorities A < channelPriorities arch → bv.get arch = [])
    (hmax : (bmax, vmax) ∈ bv.get A)
    (hub : ∀ p ∈ bv.get A, ¬ vmax.lt p.2)
    (hk : ∃ k0, k0 ∈ enabledKinds sv streamOrder)
    (hsent : ¬ A = ChannelArchetype.candidate ∨
      ∀ p ∈ bv.get A, (relVersion 0 0 0).lt p.2) :
    ∃ k ∈ enabledKinds sv streamOrder,
      (generateChannels sv streamOrder chanOrder bv).defaultChannel =
        channelName k A vmax := by
  obtain ⟨hg, hcomp⟩ := generateChannelsState_master sv streamOrder bv hv hnd
  set st := generateChannelsState sv streamOrder bv with hst
  have hdefault : (generateChannels sv streamOrder chanOrder bv).defaultChannel =
      st.hwc.name := rfl
  obtain ⟨k0, hk0⟩ := hk
  have hzero : ∀ kd ∈ enabledKinds sv streamOrder, ∃ t0, t0 ∈ st.edges ∧ t0.index = 0 ∧
      t0.arch = A ∧ t0.kind = kd ∧ t0.parent = channelName kd A vmax ∧
      t0.version.major = vmax.major ∧
      (kd = StreamType.minor → t0.version.minor = vmax.minor) ∧
      lookupV (bv.get A) t0.name = some t0.version := by
    intro kd hkd
    obtain ⟨tv, htv, harch, hkind, hname, hver⟩ := hcomp A (bmax, vmax) hmax kd hkd
    obtain ⟨e, he, _⟩ := hg.corr tv htv
    obtain ⟨ch0, hlook, hget⟩ := entryAt_eq_some.mp he
    obtain ⟨hlt0, _⟩ := List.getElem?_eq_some.mp hget
    obtain ⟨t0, ht0m, ht0p, ht0i⟩ := hg.surj tv.parent ch0 hlook 0 (by omega)
    have hpeq : channelName t0.kind t0.arch t0.version =
        channelName tv.kind tv.arch tv.version := by
      rw [← hg.parents t0 ht0m, ← hg.parents tv htv, ht0p]
    obtain ⟨hkq, haq, hmajq, hminq⟩ := channelName_inj hpeq
    have hkfin : t0.kind = kd := hkq.trans hkind
    have hafin : t0.arch = A := haq.trans harch
    refine ⟨t0, ht0m, ht0i, hafin, hkfin, ?_, ?_, ?_, ?_⟩
    · rw [hg.parents t0 ht0m, hkfin, hafin]
      refine channelName_congr ?_ ?_
      · rw [hmajq, hver]
      · intro hm
        rw [hminq (hkfin.trans hm), hver]
    · rw [hmajq, hver]
    · intro hm
      rw [hminq (hkfin.trans hm), hver]
    · have := hg.tierMem t0 ht0m
      rwa [hafin] at this
  have hbeat0 : ∀ t0, t0 ∈ st.edges → t0.arch = A →
      lookupV (bv.get A) t0.name = some t0.version →
      HighwaterChannel.hwGt ⟨A, t0.version, t0.parent⟩ initialHwc := by
    intro t0 ht0m ht0a hlkp
    by_cases hA : A = ChannelArchetype.candidate
    · rcases hsent with hs | hs
      · exact absurd hA hs
      · have hmem := lookupV_mem hlkp
        refine Or.inr ⟨?_, hs (t0.name, t0.version) hmem⟩
        rw [hA]
        rfl
    · refine Or.inl ?_
      cases A
      · exact absurd rfl hA
      · show channelPriorities ChannelArchetype.candidate <
          channelPriorities ChannelArchetype.fast
        decide
      · show channelPriorities ChannelArchetype.candidate <
          channelPriorities ChannelArchetype.stable
        decide
  rcases hg.hwcMem with hinit | ⟨ts, hts, htsi, htshwc⟩
  · exfalso
    obtain ⟨t0, ht0m, ht0i, ht0a, _, _, _, _, ht0lk⟩ := hzero k0 hk0
    have hub0 := hg.hwcUB t0 ht0m ht0i
    rw [hinit] at hub0
    refine hub0 ?_
    rw [ht0a]
    exact hbeat0 t0 ht0m ht0a ht0lk
  · have htsA : ts.arch = A := by
      by_cases hlt : channelPriorities ts.arch < channelPriorities A
      · exfalso
        obtain ⟨t0, ht0m, ht0i, ht0a, _, _, _, _, ht0lk⟩ := hzero k0 hk0
        have hub0 := hg.hwcUB t0 ht0m ht0i
        refine hub0 ?_
        rw [htshwc, ht0a]
        exact Or.inl hlt
      · by_cases hgt : channelPriorities A < channelPriorities ts.arch
        · exfalso
          have hempty := htop ts.arch hgt
          have hmem := hg.tierMem ts hts
          rw [hempty] at hmem
          exact absurd hmem (by simp [lookupV])
        · exact channelPriorities_inj (by omega)
    have hgrp : ts.version.major = vmax.major ∧
        (ts.kind = StreamType.minor → ts.version.minor = vmax.minor) := by
      by_contra hc
      push_neg at hc
      have hmemts : (ts.name, ts.version) ∈ bv.get A := by
        refine lookupV_mem ?_
        have := hg.tierMem ts hts
        rwa [htsA] at this
      have hnotlt := hub (ts.name, ts.version) hmemts
      have hkdmem : ts.kind ∈ enabledKinds sv streamOrder := hg.kindsMem ts hts
      obtain ⟨t0, ht0m, ht0i, ht0a, ht0k, ht0p, ht0maj, ht0min, ht0lk⟩ :=
        hzero ts.kind hkdmem
      have hltv : ts.version.lt t0.version := by
        rcases Version.trichotomy ts.version vmax with hlt | hpeq | hgt2
        · cases hkd : ts.kind with
          | major =>
            have hmajne : ¬ ts.version.major = vmax.major := by
              intro he
              obtain ⟨hq, _⟩ := hc he
              rw [hkd] at hq
              exact StreamType.noConfusion hq
            rcases Version.lt_major_minor hlt with hm | hm | hm
            · exact Version.lt_of_lex (Or.inl (by rw [ht0maj]; exact hm))
            · exact absurd hm.1 hmajne
            · exact absurd hm.1 hmajne
          | minor =>
            have hminfact : t0.version.minor = vmax.minor := ht0min hkd
            rcases Version.lt_major_minor hlt with hm | hm | hm
            · exact Version.lt_of_lex (Or.inl (by rw [ht0maj]; exact hm))
            · exact Version.lt_of_lex (Or.inr ⟨by rw [ht0maj]; exact hm.1,
                by rw [hminfact]; exact hm.2⟩)
            · exfalso
              obtain ⟨_, hr⟩ := hc hm.1
              exact hr hm.2
        · exfalso
          obtain ⟨h1, h2⟩ := Version.peq_major_minor hpeq
          obtain ⟨_, hr⟩ := hc h1
          exact hr h2
        · exact absurd hgt2 hnotlt
      have hub0 := hg.hwcUB t0 ht0m ht0i
      refine hub0 ?_
      rw [htshwc, ht0a]
      exact Or.inr ⟨by rw [htsA], hltv⟩
    refine ⟨ts.kind, hg.kindsMem ts hts, ?_⟩
    rw [hdefault, htshwc]
    show ts.parent = channelName ts.kind A vmax
    rw [hg.parents ts hts, htsA]
    exact channelName_congr hgrp.1 hgrp.2

/-- Witness for claim C6 at the spec scenario: the stable tier is the
highest-priority populated tier, its maximum is c at 1.1.0, and the
default channel is the minor channel of that version, `stable-v1.1`. -/
theorem C6_witness :
    ∃ k ∈ enabledKinds scenarioSV [StreamType.major, StreamType.minor],
      (generateChannels scenarioSV [StreamType.major, StreamType.minor]
        ["stable-v1.0", "stable-v1.1"] scenarioBV).defaultChannel =
        channelName k ChannelArchetype.stable (relVersion 1 1 0) :=
  C6_amended scenarioSV [.major, .minor] ["stable-v1.0", "stable-v1.1"] scenarioBV
    (by intro arch; cases arch <;> exact ⟨by decide, by decide⟩) (by decide)
    ChannelArchetype.stable "c" (relVersion 1 1 0)
    (by intro arch; cases arch <;> decide) (by decide) (by decide)
    ⟨StreamType.minor, by decide⟩ (Or.inl (by decide))

end Semver
